import Mathlib

set_option maxHeartbeats 1600000

/-!
Shallow embedding of the IPO-calendar pipeline of src/hkex_client.py.

Strings manipulated character by character (stock codes, company names,
filing titles, free text fed to the date extractors) are embedded as
List Char; payload strings only ever compared as a whole (URLs, labels,
provenance tags, error messages) stay Lean String.  Python date objects
are embedded as year/month/day records (Date below); where the code walks
or compares dates it does so through their proleptic-Gregorian ordinal
(Python date.toordinal), which the model mirrors with Date.toOrd.

Network fetches are the only effects of the translated functions; they are
embedded by passing each fetch's outcome in (Except for a call that can
raise), the standard environment-passing reading of the try/except blocks
of fetch_ipo_calendar.
-/

abbrev LStr := List Char

/-- Python str.strip(): drop leading and trailing whitespace. -/
def pyStrip (s : LStr) : LStr :=
  ((s.dropWhile Char.isWhitespace).reverse.dropWhile Char.isWhitespace).reverse

/-- Python str.replace(pat, "") for a nonempty pattern, fuel-based so that it
computes by kernel reduction: remove every non-overlapping occurrence of pat,
scanning left to right.  Any fuel at least the length of the string gives the
replace semantics. -/
def removeAllAux (pat : LStr) : Nat → LStr → LStr
  | _, [] => []
  | 0, s => s
  | fuel + 1, c :: rest =>
    if pat ≠ [] ∧ pat.isPrefixOf (c :: rest) then
      removeAllAux pat fuel ((c :: rest).drop pat.length)
    else
      c :: removeAllAux pat fuel rest

/-- Python s.replace(pat, "") (nonempty pat). -/
def removeAll (pat s : LStr) : LStr := removeAllAux pat s.length s

/-- Python substring test, pat in s. -/
def containsSub (pat : LStr) : LStr → Bool
  | [] => pat.isEmpty
  | c :: rest => pat.isPrefixOf (c :: rest) || containsSub pat rest

/-- Python str.isdigit() restricted to ASCII digits (the model of the digit
class the stock codes use): nonempty and all digits. -/
def isPyDigits (s : LStr) : Bool := !s.isEmpty && s.all Char.isDigit

/-- Python int() on an all-digit string. -/
def natOfDigits (s : LStr) : Nat := s.foldl (fun n c => n * 10 + (c.toNat - 48)) 0

/-- Decimal digits of n, most significant first, fuel-based (any fuel with
n less than 10 to the fuel is enough; natDigits supplies n + 1). -/
def natDigitsAux : Nat → Nat → LStr
  | 0, _ => []
  | fuel + 1, n =>
    if n < 10 then [Char.ofNat (48 + n)]
    else natDigitsAux fuel (n / 10) ++ [Char.ofNat (48 + n % 10)]

def natDigits (n : Nat) : LStr := natDigitsAux (n + 1) n

/-- Python format f-string 05d: decimal digits left-padded with zeros to at
least five characters. -/
def padTo5 (n : Nat) : LStr := List.replicate (5 - (natDigits n).length) '0' ++ natDigits n

/-- The double-quote character (Python's placeholder check uses it). -/
def quoteChar : Char := Char.ofNat 34

/-- The residue normalize_stock_code works on: strip, drop every occurrence
of the literal substrings .HK and then HK, strip again (the replace chain of
lines 194-195 of src/hkex_client.py). -/
def stockCodeResidue (value : LStr) : LStr :=
  pyStrip (removeAll ['H', 'K'] (removeAll ['.', 'H', 'K'] (pyStrip value)))

/-- normalize_stock_code (src/hkex_client.py lines 186-198), string path; the
None and NaN guards of the Python function map non-string input to "" before
this logic runs and are outside the string model. -/
def normalize_stock_code (value : LStr) : LStr :=
  let text := pyStrip value
  if text = [] ∨ text = [quoteChar] ∨ text = ['-'] then []
  else if isPyDigits (stockCodeResidue value) then padTo5 (natOfDigits (stockCodeResidue value))
  else stockCodeResidue value

/-- normalize_company_key: lower-case, keep only [a-z0-9]. -/
def normalize_company_key (name : LStr) : LStr :=
  (name.map Char.toLower).filter (fun c => c.isLower || c.isDigit)

/-! ## Dates (the fragment of Python datetime.date the pipeline uses) -/

def isLeap (y : Nat) : Bool := y % 4 == 0 && (y % 100 != 0 || y % 400 == 0)

/-- calendar.monthrange(y, m)[1]; months outside 1..12 never reach it. -/
def daysInMonth (y m : Nat) : Nat :=
  if m = 2 then (if isLeap y then 29 else 28)
  else if m = 4 ∨ m = 6 ∨ m = 9 ∨ m = 11 then 30
  else 31

/-- Days in months 1..m of year y. -/
def cumDays (y : Nat) : Nat → Nat
  | 0 => 0
  | m + 1 => cumDays y m + daysInMonth y (m + 1)

/-- Leap years strictly before year y (meaningful for y at least 1). -/
def leapsBefore (y : Nat) : Nat := (y - 1) / 4 - (y - 1) / 100 + (y - 1) / 400

/-- Ordinal of the first day of year y minus one. -/
def yearBase (y : Nat) : Nat := 365 * (y - 1) + leapsBefore y

structure Date where
  year : Nat
  month : Nat
  day : Nat
deriving DecidableEq, Repr

/-- Python date.toordinal(): proleptic Gregorian ordinal, 0001-01-01 is 1. -/
def Date.toOrd (v : Date) : Nat := yearBase v.year + cumDays v.year (v.month - 1) + v.day

/-- The dates Python's date constructor accepts (year at least 1). -/
def Date.valid (v : Date) : Prop :=
  1 ≤ v.year ∧ 1 ≤ v.month ∧ v.month ≤ 12 ∧ 1 ≤ v.day ∧ v.day ≤ daysInMonth v.year v.month

instance : ∀ v : Date, Decidable v.valid := fun v => by unfold Date.valid; infer_instance

/-- Python date.min, 0001-01-01. -/
def dateMin : Date := { year := 1, month := 1, day := 1 }

/-- From src/hkex_client.py line 209. -/
def _month_index (v : Date) : Nat := v.year * 12 + v.month

/-- From src/hkex_client.py lines 213-217; Python's floor division and modulo
are Int.fdiv and Int.fmod.  (Python's date constructor would raise on a
nonpositive resulting year, where toNat clamps; no verified scenario reaches
that case.) -/
def _add_months (v : Date) (months : Int) : Date :=
  let t : Int := (v.month : Int) - 1 + months
  let year : Nat := ((v.year : Int) + t.fdiv 12).toNat
  let month : Nat := (t.fmod 12 + 1).toNat
  { year := year, month := month, day := min v.day (daysInMonth year month) }

/-! ## Calendar items -/

/-- One calendar record (the Python dict): the fields the verified operations
read or write.  Fields the pipeline only carries along (industry, prices,
lot size, urls of the schedule source) are payload the claims never touch. -/
structure Item where
  company : LStr
  stock_code : LStr
  bookbuilding_start : Option Date
  bookbuilding_end : Option Date
  trade_date : Option Date
  bookbuilding_label : Option String
  bookbuilding_type : Option String
  trade_label : Option String
  source : Option String
  announcement_url : Option String
  prospectus_url : Option String
  allotment_url : Option String
  company_page_url : Option String
deriving DecidableEq, Repr

/-- A record with every field absent or empty, for building fixtures. -/
def baseItem : Item :=
  { company := [], stock_code := [], bookbuilding_start := none, bookbuilding_end := none,
    trade_date := none, bookbuilding_label := none, bookbuilding_type := none,
    trade_label := none, source := none, announcement_url := none, prospectus_url := none,
    allotment_url := none, company_page_url := none }

/-- From src/hkex_client.py lines 220-226: shift the three date fields that
are present. -/
def _shift_item_months (item : Item) (months : Int) : Item :=
  { item with
    bookbuilding_start := item.bookbuilding_start.map (fun v => _add_months v months),
    bookbuilding_end := item.bookbuilding_end.map (fun v => _add_months v months),
    trade_date := item.trade_date.map (fun v => _add_months v months) }

/-- The date comprehension of _shift_sample_to_recent (lines 232-241): the
three date fields of every item, in item order, absent ones skipped. -/
def collectItemDates (items : List Item) : List Date :=
  items.flatMap (fun item =>
    [item.bookbuilding_start, item.bookbuilding_end, item.trade_date].filterMap id)

/-- Python max over a nonempty list of dates (dates compare by ordinal). -/
def listMaxD (d : Date) (ds : List Date) : Date :=
  ds.foldl (fun acc x => if acc.toOrd < x.toOrd then x else acc) d

/-- Python min over a nonempty list of dates. -/
def listMinD (d : Date) (ds : List Date) : Date :=
  ds.foldl (fun acc x => if x.toOrd < acc.toOrd then x else acc) d

/-- From src/hkex_client.py lines 229-251.  date.today() is passed in. -/
def _shift_sample_to_recent (today : Date) (items : List Item) : List Item :=
  match items with
  | [] => items
  | _ :: _ =>
    match collectItemDates items with
    | [] => items
    | d :: ds =>
      let latest := listMaxD d ds
      if (today.toOrd : Int) - 60 ≤ (latest.toOrd : Int) then items
      else
        let earliest := listMinD d ds
        let delta : Int := (_month_index today : Int) - (_month_index earliest : Int)
        if delta = 0 then items
        else items.map (fun item => _shift_item_months item delta)

/-! ## Deduplication (calendar items and filings share the seen-set pattern) -/

/-- The seen-set loop shared by _dedupe_calendar_items and _dedupe_filings:
skip an element whose key was already seen, otherwise keep it and record the
key. -/
def dedupeByAux {α β : Type} [DecidableEq β] (key : α → β) (seen : List β) : List α → List α
  | [] => []
  | x :: xs =>
    if key x ∈ seen then dedupeByAux key seen xs
    else x :: dedupeByAux key (key x :: seen) xs

/-- The identity tuple of _dedupe_calendar_items (lines 570-576). -/
def itemKey (item : Item) : LStr × Option Date × Option Date × LStr × Option String :=
  (normalize_stock_code item.stock_code, item.trade_date, item.bookbuilding_start,
   normalize_company_key item.company, item.bookbuilding_type)

/-- From src/hkex_client.py lines 566-581. -/
def _dedupe_calendar_items (items : List Item) : List Item := dedupeByAux itemKey [] items

/-! ## Attaching cross-referenced listing documents -/

def HKEX_NEW_LISTING_MAIN_URL : String :=
  "https://www2.hkexnews.hk/New-Listings/New-Listing-Information/Main-Board?sc_lang=en"

/-- One row of the stock-code-to-documents map of _extract_new_listing_documents. -/
structure DocInfo where
  company : LStr
  announcement_url : Option String
  prospectus_url : Option String
  allotment_url : Option String
deriving DecidableEq, Repr

def lookupDoc (code : LStr) : List (LStr × DocInfo) → Option DocInfo
  | [] => none
  | (k, v) :: rest => if k = code then some v else lookupDoc code rest

/-- Whether a Python string-or-None value is falsy (None or the empty string). -/
def optStrFalsy (o : Option String) : Bool :=
  match o with
  | none => true
  | some u => u == ""

/-- The per-item body of _attach_new_listing_documents (lines 546-563).
Python setdefault on a key the adapters never populate is embedded as
fill-if-absent on the Option field. -/
def attachDocsOne (documents : List (LStr × DocInfo)) (item : Item) : Item :=
  let code := normalize_stock_code item.stock_code
  if code = [] then item
  else
    match lookupDoc code documents with
    | none => item
    | some doc =>
      let item1 : Item :=
        { item with
          announcement_url := item.announcement_url <|> doc.announcement_url,
          prospectus_url := item.prospectus_url <|> doc.prospectus_url,
          allotment_url := item.allotment_url <|> doc.allotment_url }
      let item2 : Item := if item1.company = [] then { item1 with company := doc.company } else item1
      if optStrFalsy item2.company_page_url then
        { item2 with
          company_page_url :=
            some ((doc.prospectus_url <|> doc.announcement_url).getD HKEX_NEW_LISTING_MAIN_URL) }
      else item2

/-- From src/hkex_client.py lines 541-563 (the in-place mutation of the list,
written functionally). -/
def _attach_new_listing_documents (items : List Item) (documents : List (LStr × DocInfo)) :
    List Item :=
  if documents = [] then items else items.map (attachDocsOne documents)

/-! ## Filings, term-sheet ranking and filing deduplication -/

structure Filing where
  title : LStr
  url : String
  published_date : Option Date
  source : String
deriving DecidableEq, Repr

/-- From src/hkex_client.py lines 58-67. -/
def TERM_SHEET_KEYWORDS : List LStr :=
  ["application proof".toList, "phip".toList, "term sheet".toList,
   "hearing information pack".toList, "offering circular".toList,
   "prospectus".toList, "announcement".toList, "allotment results".toList]

def lowerStr (s : LStr) : LStr := s.map Char.toLower

/-- From src/hkex_client.py lines 1077-1085: (keyword rank, source rank,
negated ordinal of the published date or date.min). -/
def _term_sheet_rank (f : Filing) : Nat × Nat × Int :=
  let title := lowerStr f.title
  let keyword_rank :=
    (TERM_SHEET_KEYWORDS.findIdx? (fun k => containsSub k title)).getD TERM_SHEET_KEYWORDS.length
  let source_rank : Nat := if f.source = "hkex-application-proof" then 0 else 1
  let date_rank : Int := -(((f.published_date.getD dateMin).toOrd : Int))
  (keyword_rank, source_rank, date_rank)

/-- Strict lexicographic comparison of rank triples (Python tuple less-than). -/
def rankLtB (a b : Nat × Nat × Int) : Bool :=
  decide (a.1 < b.1) ||
    (a.1 == b.1 &&
      (decide (a.2.1 < b.2.1) || (a.2.1 == b.2.1 && decide (a.2.2 < b.2.2))))

/-- Lexicographic at-most on rank triples. -/
def rankLeB (a b : Nat × Nat × Int) : Bool := !rankLtB b a

/-- From src/hkex_client.py lines 1071-1074: Python min with a key keeps the
first element whose key is minimal. -/
def select_term_sheet : List Filing → Option Filing
  | [] => none
  | f :: fs =>
    some (fs.foldl
      (fun best x => if rankLtB (_term_sheet_rank x) (_term_sheet_rank best) then x else best) f)

/-- The sort key of _dedupe_filings: published date or date.min, as ordinal. -/
def filingSortKey (f : Filing) : Nat := (f.published_date.getD dateMin).toOrd

/-- From src/hkex_client.py lines 1059-1068: URL dedupe (first occurrence
wins), then Python's stable sort, descending by the key; a stable mergeSort
with the reversed comparison embeds list.sort(reverse=True). -/
def _dedupe_filings (filings : List Filing) : List Filing :=
  (dedupeByAux Filing.url [] filings).mergeSort
    (fun a b => decide (filingSortKey b ≤ filingSortKey a))

/-! ## The event index -/

structure Event where
  type : String
  label : String
  item : Item
deriving DecidableEq, Repr

/-- Python events.setdefault(day, []).append(entry) over a dict in insertion
order: extend the existing entry of the day, else append a new singleton one. -/
def addEvent : List (Nat × List Event) → Nat → Event → List (Nat × List Event)
  | [], d, ev => [(d, [ev])]
  | (k, es) :: rest, d, ev =>
    if k = d then (k, es ++ [ev]) :: rest else (k, es) :: addEvent rest d ev

/-- Association lookup in the event index (empty list for an absent day). -/
def lookupEvents (m : List (Nat × List Event)) (d : Nat) : List Event :=
  ((m.find? (fun p => p.1 == d)).map Prod.snd).getD []

def BOOK_LABEL_DEFAULT : String := "Bookbuilding"
def BOOK_TYPE_DEFAULT : String := "bookbuilding"
def TRADE_LABEL_DEFAULT : String := "Trade"
def TRADE_TYPE : String := "trade"

/-- The per-item body of build_event_index (lines 831-853): one bookbuilding
event for every day of the closed window (the while-loop over ordinals is the
ordinal range), then one trade event if a trade date is present. -/
def itemEventsStep (m : List (Nat × List Event)) (item : Item) : List (Nat × List Event) :=
  let book_label := item.bookbuilding_label.getD BOOK_LABEL_DEFAULT
  let book_type := item.bookbuilding_type.getD BOOK_TYPE_DEFAULT
  let trade_label := item.trade_label.getD TRADE_LABEL_DEFAULT
  let m1 :=
    match item.bookbuilding_start, item.bookbuilding_end with
    | some bs, some be =>
      (List.range' bs.toOrd (be.toOrd + 1 - bs.toOrd)).foldl
        (fun acc d => addEvent acc d { type := book_type, label := book_label, item := item }) m
    | _, _ => m
  match item.trade_date with
  | some t => addEvent m1 t.toOrd { type := TRADE_TYPE, label := trade_label, item := item }
  | none => m1

/-- build_event_index (src/hkex_client.py lines 829-854); days keyed by their
ordinals (the Python dict is keyed by date objects, which are in bijection
with their ordinals). -/
def build_event_index (items : List Item) : List (Nat × List Event) :=
  items.foldl itemEventsStep []

/-- All events of the index, in key order then per-day order. -/
def allEvents (m : List (Nat × List Event)) : List Event := (m.map Prod.snd).flatten

/-! ## Date extraction from free text (the two regular expressions of
extract_date_range, compiled by hand for the fixed patterns) -/

/-- Month number of a lowercase month token, per the month names and
abbreviations the dateutil parser accepts for the D-Month-YYYY shapes. -/
def monthNames : List (LStr × Nat) :=
  [("jan".toList, 1), ("january".toList, 1), ("feb".toList, 2), ("february".toList, 2),
   ("mar".toList, 3), ("march".toList, 3), ("apr".toList, 4), ("april".toList, 4),
   ("may".toList, 5), ("jun".toList, 6), ("june".toList, 6), ("jul".toList, 7),
   ("july".toList, 7), ("aug".toList, 8), ("august".toList, 8), ("sep".toList, 9),
   ("sept".toList, 9), ("september".toList, 9), ("oct".toList, 10), ("october".toList, 10),
   ("nov".toList, 11), ("november".toList, 11), ("dec".toList, 12), ("december".toList, 12)]

def monthFromName (s : LStr) : Option Nat :=
  (monthNames.find? (fun p => p.1 == s)).map Prod.snd

/-- Modelled from the library call: safe_parse_date (dateutil, dayfirst) on a
matched D Month YYYY fragment.  Month token by name or abbreviation, day
checked against the Gregorian calendar, year at least 1; anything else parses
to None. -/
def parseDayMonthYear (dTok mTok yTok : LStr) : Option Date :=
  match monthFromName (lowerStr mTok) with
  | none => none
  | some mo =>
    let day := natOfDigits dTok
    let year := natOfDigits yTok
    if 1 ≤ year ∧ 1 ≤ day ∧ day ≤ daysInMonth year mo then some (Date.mk year mo day)
    else none

/-- Matcher for one D Month YYYY occurrence anchored at the front of s, the
findall pattern of extract_date_range (line 147): digit run of length 1-2,
whitespace, letter run of length 3-9, whitespace, then at least four digits of
which the match takes four.  Returns the consumed length and the three
captured token runs.  Runs encode the greedy-with-backtracking semantics: a
longer digit or letter run than the bound cannot match at this anchor because
every shorter prefix is followed by a character of the same class. -/
def matchDmyAt (s : LStr) : Option (Nat × (LStr × LStr × LStr)) :=
  let ds := s.takeWhile Char.isDigit
  if ds.length = 0 ∨ 2 < ds.length then none
  else
    let s1 := s.drop ds.length
    let sp1 := s1.takeWhile Char.isWhitespace
    if sp1.length = 0 then none
    else
      let s2 := s1.drop sp1.length
      let al := s2.takeWhile Char.isAlpha
      if al.length < 3 ∨ 9 < al.length then none
      else
        let s3 := s2.drop al.length
        let sp2 := s3.takeWhile Char.isWhitespace
        if sp2.length = 0 then none
        else
          let s4 := s3.drop sp2.length
          let yr := s4.take 4
          if yr.length = 4 ∧ yr.all Char.isDigit then
            some (ds.length + sp1.length + al.length + sp2.length + 4, (ds, al, yr))
          else none

/-- re.findall of the D Month YYYY pattern: leftmost matches, non-overlapping,
scan resuming after each match.  Fuel at least the length of the text gives
the re semantics. -/
def findAllDmy : Nat → LStr → List (LStr × LStr × LStr)
  | 0, _ => []
  | fuel + 1, s =>
    match s with
    | [] => []
    | _ :: rest =>
      match matchDmyAt s with
      | some (n, g) => g :: findAllDmy fuel (s.drop n)
      | none => findAllDmy fuel rest

/-- Matcher for the compact range pattern of _parse_compact_range (line 130),
digits 1-2, optional space, hyphen, optional space, digits 1-2, space, letters
3-9, space, four digits, anchored at the front of s; returns the four captured
groups. -/
def matchCompactAt (s : LStr) : Option (LStr × LStr × LStr × LStr) :=
  let d1 := s.takeWhile Char.isDigit
  if d1.length = 0 ∨ 2 < d1.length then none
  else
    let s1 := s.drop d1.length
    let sp1 := s1.takeWhile Char.isWhitespace
    match s1.drop sp1.length with
    | '-' :: s2 =>
      let sp2 := s2.takeWhile Char.isWhitespace
      let s3 := s2.drop sp2.length
      let d2 := s3.takeWhile Char.isDigit
      if d2.length = 0 ∨ 2 < d2.length then none
      else
        let s4 := s3.drop d2.length
        let sp3 := s4.takeWhile Char.isWhitespace
        if sp3.length = 0 then none
        else
          let s5 := s4.drop sp3.length
          let al := s5.takeWhile Char.isAlpha
          if al.length < 3 ∨ 9 < al.length then none
          else
            let s6 := s5.drop al.length
            let sp4 := s6.takeWhile Char.isWhitespace
            if sp4.length = 0 then none
            else
              let s7 := s6.drop sp4.length
              let yr := s7.take 4
              if yr.length = 4 ∧ yr.all Char.isDigit then some (d1, d2, al, yr) else none
    | _ => none

/-- re.search of the compact pattern: first position, left to right, where the
matcher succeeds. -/
def searchCompact : Nat → LStr → Option (LStr × LStr × LStr × LStr)
  | 0, _ => none
  | fuel + 1, s =>
    match matchCompactAt s with
    | some g => some g
    | none =>
      match s with
      | [] => none
      | _ :: rest => searchCompact fuel rest

/-- From src/hkex_client.py lines 129-138. -/
def _parse_compact_range (text : LStr) : Option (Date × Date) :=
  match searchCompact (text.length + 1) text with
  | none => none
  | some (d1, d2, mon, yr) =>
    match parseDayMonthYear d1 mon yr, parseDayMonthYear d2 mon yr with
    | some a, some b => some (a, b)
    | _, _ => none

/-- The parsed dates of the findall branch of extract_date_range (line 148). -/
def extractedDates (text : LStr) : List Date :=
  (findAllDmy (text.length + 1) text).filterMap
    (fun g => parseDayMonthYear g.1 g.2.1 g.2.2)

/-- From src/hkex_client.py lines 141-153. -/
def extract_date_range (text : LStr) : Option Date × Option Date :=
  if text.isEmpty then (none, none)
  else
    match _parse_compact_range text with
    | some (s, e) => (some s, some e)
    | none =>
      match extractedDates text with
      | a :: b :: _ => (some a, some b)
      | [a] => (some a, some a)
      | [] => (none, none)

/-! ## The orchestrator fetch_ipo_calendar -/

structure FetchMeta where
  source : String
  errors : List String
deriving DecidableEq, Repr

/-- Outcomes of the network fetches fetch_ipo_calendar performs, passed in:
an Except.error is the exception the corresponding try block catches.  The
sample fixture is passed already normalized (load_sample_calendar parses its
date strings before shifting); date.today() is passed as today. -/
structure FetchEnv where
  listingReport : Except String (List Item)
  aastocks : Except String (List Item)
  appProof : Except String (List Item)
  listingDocs : Except String (List (LStr × DocInfo))
  hkexCalendar : Except String (List Item)
  today : Date
  sampleItems : List Item

/-- load_sample_calendar (lines 165-171) on the already-parsed fixture. -/
def load_sample_calendar (env : FetchEnv) : List Item :=
  _shift_sample_to_recent env.today env.sampleItems

/-- fetch_ipo_calendar (src/hkex_client.py lines 254-286). -/
def fetch_ipo_calendar (env : FetchEnv) (use_live : Bool) : List Item × FetchMeta :=
  if use_live then
    let step1 : List Item × List String :=
      match env.listingReport with
      | Except.ok xs => (xs, [])
      | Except.error e => ([], ["HKEX new listing report fetch failed: " ++ e])
    let step2 : List Item × List String :=
      match env.aastocks with
      | Except.ok xs => (step1.1 ++ xs, step1.2)
      | Except.error e => (step1.1, step1.2 ++ ["AASTOCKS upcoming IPO fetch failed: " ++ e])
    let step3 : List Item × List String :=
      match env.appProof with
      | Except.ok xs => (step2.1 ++ xs, step2.2)
      | Except.error e => (step2.1, step2.2 ++ ["HKEX application proof fetch failed: " ++ e])
    let step4 : List Item × List String :=
      if step3.1 = [] then step3
      else
        match env.listingDocs with
        | Except.ok docs =>
          (_dedupe_calendar_items (_attach_new_listing_documents step3.1 docs), step3.2)
        | Except.error e =>
          (_dedupe_calendar_items step3.1,
           step3.2 ++ ["HKEX new listing document fetch failed: " ++ e])
    if step4.1 ≠ [] then (step4.1, { source := "hkex-news", errors := step4.2 })
    else
      match env.hkexCalendar with
      | Except.ok xs =>
        if xs ≠ [] then (xs, { source := "hkex", errors := step4.2 })
        else
          (load_sample_calendar env,
           { source := "sample", errors := step4.2 ++ ["HKEX calendar returned empty data"] })
      | Except.error e =>
        (load_sample_calendar env,
         { source := "sample", errors := step4.2 ++ ["HKEX calendar fetch failed: " ++ e] })
  else (load_sample_calendar env, { source := "sample", errors := [] })

/-- The keyword priority list as the claim (and the spec sentence behind it)
states it: no phip entry, and hearing pack ahead of term sheet.  Declared only
to compare the claimed ranking with the implemented one. -/
def claimTermSheetKeywords : List LStr :=
  ["application proof".toList, "hearing pack".toList, "term sheet".toList,
   "offering circular".toList, "prospectus".toList, "announcement".toList,
   "allotment results".toList]

/-- The 3-key rank the claim describes, over its own keyword list (second and
third keys as in the code). -/
def claimTermSheetRank (f : Filing) : Nat × Nat × Int :=
  let title := lowerStr f.title
  let keyword_rank :=
    (claimTermSheetKeywords.findIdx? (fun k => containsSub k title)).getD
      claimTermSheetKeywords.length
  let source_rank : Nat := if f.source = "hkex-application-proof" then 0 else 1
  let date_rank : Int := -(((f.published_date.getD dateMin).toOrd : Int))
  (keyword_rank, source_rank, date_rank)

/-- Fixture: a filing titled PHIP (matches the code's second keyword, none of
the claim's). -/
def phipFiling : Filing :=
  { title := "PHIP".toList, url := "u1", published_date := none, source := "hkexnews" }

/-- Fixture: a filing titled Prospectus with no date. -/
def prospPlainFiling : Filing :=
  { title := "Prospectus".toList, url := "u2", published_date := none, source := "hkexnews" }

/-- Fixture: a recent Announcement filing from the search source. -/
def annRecentFiling : Filing :=
  { title := "Announcement".toList, url := "u1", published_date := some (Date.mk 2024 6 1),
    source := "hkexnews" }

/-- Fixture: an older Prospectus filing from the application-proof source. -/
def prospProofFiling : Filing :=
  { title := "Prospectus".toList, url := "u2", published_date := some (Date.mk 2024 1 1),
    source := "hkex-application-proof" }

/-- Fixture: an environment in which every live source raises. -/
def allFailEnv : FetchEnv :=
  { listingReport := Except.error "report down",
    aastocks := Except.error "aastocks down",
    appProof := Except.error "app proof down",
    listingDocs := Except.ok [],
    hkexCalendar := Except.error "calendar down",
    today := Date.mk 2025 1 1,
    sampleItems := [] }

/-- Fixture for the time-shift scenario: a record whose dates span half a
year, far in the past. -/
def staleSpanItem : Item :=
  { baseItem with
    bookbuilding_start := some (Date.mk 2020 1 10),
    bookbuilding_end := some (Date.mk 2020 1 10),
    trade_date := some (Date.mk 2020 7 20) }

/-! ## Lemmas: the seen-set dedupe loop -/

theorem dedupeByAux_sublist {α β : Type} [DecidableEq β] (key : α → β) :
    ∀ (l : List α) (seen : List β), (dedupeByAux key seen l).Sublist l := by
  intro l
  induction l with
  | nil => intro seen; simp [dedupeByAux]
  | cons a t ih =>
    intro seen
    unfold dedupeByAux
    by_cases h : key a ∈ seen
    · simp only [h, if_true]
      exact (ih seen).cons a
    · simp only [h, if_false]
      exact (ih (key a :: seen)).cons₂ a

theorem dedupeByAux_mem_key {α β : Type} [DecidableEq β] (key : α → β) :
    ∀ (l : List α) (seen : List β) (x : α), x ∈ dedupeByAux key seen l → key x ∉ seen := by
  intro l
  induction l with
  | nil => intro seen x hx; simp [dedupeByAux] at hx
  | cons a t ih =>
    intro seen x hx
    unfold dedupeByAux at hx
    by_cases h : key a ∈ seen
    · simp only [h, if_true] at hx
      exact ih seen x hx
    · simp only [h, if_false, List.mem_cons] at hx
      rcases hx with rfl | hx
      · exact h
      · have := ih (key a :: seen) x hx
        intro hc
        exact this (List.mem_cons_of_mem _ hc)

theorem dedupeByAux_pairwise {α β : Type} [DecidableEq β] (key : α → β) :
    ∀ (l : List α) (seen : List β),
      (dedupeByAux key seen l).Pairwise (fun a b => key a ≠ key b) := by
  intro l
  induction l with
  | nil => intro seen; simp [dedupeByAux]
  | cons a t ih =>
    intro seen
    unfold dedupeByAux
    by_cases h : key a ∈ seen
    · simp only [h, if_true]
      exact ih seen
    · simp only [h, if_false]
      refine List.Pairwise.cons ?_ (ih (key a :: seen))
      intro y hy
      have := dedupeByAux_mem_key key t (key a :: seen) y hy
      intro he
      exact this (by rw [← he]; exact List.mem_cons_self _ _)

theorem dedupeByAux_mem_iff {α β : Type} [DecidableEq β] (key : α → β) :
    ∀ (l : List α) (seen : List β) (x : α),
      x ∈ dedupeByAux key seen l ↔
        (key x ∉ seen ∧ l.find? (fun y => decide (key y = key x)) = some x) := by
  intro l
  induction l with
  | nil => intro seen x; simp [dedupeByAux]
  | cons a t ih =>
    intro seen x
    unfold dedupeByAux
    by_cases h : key a ∈ seen
    · simp only [h, if_true]
      by_cases hk : key a = key x
      · rw [List.find?_cons_of_pos _ (by simp [hk])]
        constructor
        · intro hx
          exact absurd (hk ▸ h) (ih seen x |>.mp hx).1
        · rintro ⟨hns, he⟩
          injection he with he
          exact absurd (hk ▸ h) (he ▸ hns)
      · rw [List.find?_cons_of_neg _ (by simp [hk])]
        exact ih seen x
    · simp only [h, if_false, List.mem_cons]
      by_cases hk : key a = key x
      · rw [List.find?_cons_of_pos _ (by simp [hk])]
        constructor
        · rintro (rfl | hx)
          · exact ⟨hk ▸ h, rfl⟩
          · have := dedupeByAux_mem_key key t (key a :: seen) x hx
            exact absurd (hk ▸ List.mem_cons_self _ _) this
        · rintro ⟨hns, he⟩
          injection he with he
          exact Or.inl he.symm
      · rw [List.find?_cons_of_neg _ (by simp [hk])]
        rw [ih (key a :: seen) x]
        constructor
        · rintro (rfl | ⟨hns, hf⟩)
          · exact absurd rfl hk
          · exact ⟨fun hc => hns (List.mem_cons_of_mem _ hc), hf⟩
        · rintro ⟨hns, hf⟩
          refine Or.inr ⟨?_, hf⟩
          simp only [List.mem_cons]
          rintro (he | he)
          · exact hk he.symm
          · exact hns he

/-- C4: the reconciliation deduplication leaves no two records sharing the
identity tuple (normalized stock code, trade date, bookbuilding start,
normalized company key, bookbuilding type); of the records sharing a tuple
only the first-seen one survives, and the output keeps the input order. -/
theorem C4_dedupe_calendar_identity (l : List Item) :
    (_dedupe_calendar_items l).Pairwise (fun a b => itemKey a ≠ itemKey b) ∧
    (_dedupe_calendar_items l).Sublist l ∧
    (∀ x : Item, x ∈ _dedupe_calendar_items l ↔
      l.find? (fun y => decide (itemKey y = itemKey x)) = some x) := by
  refine ⟨dedupeByAux_pairwise itemKey l [], dedupeByAux_sublist itemKey l [], ?_⟩
  intro x
  rw [_dedupe_calendar_items, dedupeByAux_mem_iff itemKey l [] x]
  simp

/-- C4 witness: on a two-record list agreeing on the identity tuple but
differing in provenance, only the first record survives. -/
theorem C4_dedupe_calendar_identity_witness :
    let a : Item := { baseItem with source := some "aastocks" }
    let b : Item := { baseItem with source := some "application-proof" }
    b ∈ _dedupe_calendar_items [a, b] ↔
      [a, b].find? (fun y => decide (itemKey y = itemKey b)) = some b :=
  (C4_dedupe_calendar_identity
    [{ baseItem with source := some "aastocks" },
     { baseItem with source := some "application-proof" }]).2.2 _

/-- C7: filing deduplication and ordering: pairwise-distinct URLs, the filing
kept for a URL is the first-seen one (title, date, source included), and the
output is sorted newest-first by published date with missing dates as the
oldest (date.min). -/
theorem C7_dedupe_filings_invariant (l : List Filing) :
    (_dedupe_filings l).Pairwise (fun a b => a.url ≠ b.url) ∧
    (∀ f : Filing, f ∈ _dedupe_filings l ↔
      l.find? (fun g => decide (g.url = f.url)) = some f) ∧
    (_dedupe_filings l).Pairwise (fun a b => filingSortKey b ≤ filingSortKey a) := by
  have hperm :
      (_dedupe_filings l).Perm (dedupeByAux Filing.url [] l) :=
    List.mergeSort_perm (dedupeByAux Filing.url [] l) _
  refine ⟨?_, ?_, ?_⟩
  · exact (hperm.pairwise_iff (fun hr => Ne.symm hr)).mpr
      (dedupeByAux_pairwise Filing.url l [])
  · intro f
    rw [hperm.mem_iff, dedupeByAux_mem_iff Filing.url l [] f]
    simp
  · have hs :
        (_dedupe_filings l).Pairwise
          (fun a b => decide (filingSortKey b ≤ filingSortKey a) = true) := by
      apply List.sorted_mergeSort
      · intro a b c hab hbc
        simp only [decide_eq_true_eq] at hab hbc ⊢
        omega
      · intro a b
        simp only [Bool.or_eq_true, decide_eq_true_eq]
        omega
    exact hs.imp (fun h => of_decide_eq_true h)

/-- C7 witness: on a concrete two-filing list sharing a URL, the first-seen
filing is the one the output keeps. -/
theorem C7_dedupe_filings_invariant_witness :
    let f1 : Filing := { title := "Prospectus".toList, url := "u", published_date := none,
                         source := "hkexnews" }
    let f2 : Filing := { title := "Announcement".toList, url := "u", published_date := none,
                         source := "servlet" }
    f1 ∈ _dedupe_filings [f1, f2] ↔
      [f1, f2].find? (fun g => decide (g.url = f1.url)) = some f1 :=
  (C7_dedupe_filings_invariant
    [{ title := "Prospectus".toList, url := "u", published_date := none, source := "hkexnews" },
     { title := "Announcement".toList, url := "u", published_date := none,
       source := "servlet" }]).2.1 _

/-! ## Lemmas: the event index -/

theorem addEvent_of_not_mem (m : List (Nat × List Event)) (d : Nat) (ev : Event)
    (h : d ∉ m.map Prod.fst) : addEvent m d ev = m ++ [(d, [ev])] := by
  induction m with
  | nil => rfl
  | cons p rest ih =>
    obtain ⟨k, es⟩ := p
    simp only [List.map_cons, List.mem_cons] at h
    push_neg at h
    simp only [addEvent, if_neg (Ne.symm h.1), List.cons_append]
    rw [ih h.2]

theorem addEvent_map_mem (ds : List Nat) (g : Nat → List Event) (t : Nat) (ev : Event)
    (hnd : ds.Nodup) (ht : t ∈ ds) :
    addEvent (ds.map (fun d => (d, g d))) t ev =
      ds.map (fun d => (d, if d = t then g d ++ [ev] else g d)) := by
  induction ds with
  | nil => cases ht
  | cons a r ih =>
    simp only [List.map_cons, addEvent]
    rcases List.nodup_cons.mp hnd with ⟨hna, hr⟩
    by_cases ha : a = t
    · subst ha
      simp only [if_true, ite_true, eq_self_iff_true]
      congr 1
      apply List.map_congr_left
      intro d hd
      rw [if_neg]
      intro he
      exact hna (he ▸ hd)
    · rcases List.mem_cons.mp ht with he | ht2
      · exact absurd he.symm ha
      · simp only [if_neg ha, ih hr ht2]

theorem foldl_addEvent_fresh (ev : Event) :
    ∀ (ds : List Nat) (m : List (Nat × List Event)), ds.Nodup →
      (∀ d ∈ ds, d ∉ m.map Prod.fst) →
      ds.foldl (fun acc d => addEvent acc d ev) m = m ++ ds.map (fun d => (d, [ev])) := by
  intro ds
  induction ds with
  | nil => intro m _ _; simp
  | cons a r ih =>
    intro m hnd hfresh
    rcases List.nodup_cons.mp hnd with ⟨hna, hr⟩
    simp only [List.foldl_cons]
    rw [addEvent_of_not_mem m a ev (hfresh a (List.mem_cons_self a r))]
    rw [ih (m ++ [(a, [ev])]) hr ?_]
    · simp
    · intro d hd
      simp only [List.map_append, List.mem_append, List.map_cons, List.map_nil,
        List.mem_singleton]
      rintro (hm | he)
      · exact hfresh d (List.mem_cons_of_mem _ hd) hm
      · exact hna (he ▸ hd)

theorem lookupEvents_map_nodup (ds : List Nat) (g : Nat → List Event) (x : Nat)
    (hnd : ds.Nodup) :
    lookupEvents (ds.map (fun d => (d, g d))) x = if x ∈ ds then g x else [] := by
  induction ds with
  | nil => simp [lookupEvents]
  | cons a r ih =>
    rcases List.nodup_cons.mp hnd with ⟨hna, hr⟩
    simp only [List.map_cons]
    by_cases ha : a = x
    · subst ha
      simp [lookupEvents, List.find?_cons_of_pos]
    · rw [lookupEvents, List.find?_cons_of_neg _ (by simp [ha])]
      rw [← lookupEvents, ih hr]
      simp only [List.mem_cons]
      by_cases hx : x ∈ r
      · simp [hx, ha]
      · have hxa : ¬ x = a := fun he => ha he.symm
        simp [hx, hxa]

theorem allEvents_map (ds : List Nat) (g : Nat → List Event) (p : Event → Bool) :
    (allEvents (ds.map (fun d => (d, g d)))).countP p =
      (ds.map (fun d => (g d).countP p)).sum := by
  simp only [allEvents, List.map_map, List.countP_flatten]
  rfl

theorem allEvents_map_length (ds : List Nat) (g : Nat → List Event) :
    (allEvents (ds.map (fun d => (d, g d)))).length =
      (ds.map (fun d => (g d).length)).sum := by
  simp only [allEvents, List.map_map, List.length_flatten]
  rfl

theorem sum_map_if_single : ∀ (ds : List Nat) (t : Nat) (c : Nat), ds.Nodup → t ∈ ds →
    (ds.map (fun d => if d = t then c else 0)).sum = c := by
  intro ds
  induction ds with
  | nil => intro t c _ ht; cases ht
  | cons a r ih =>
    intro t c hnd ht
    rcases List.nodup_cons.mp hnd with ⟨hna, hr⟩
    simp only [List.map_cons, List.sum_cons]
    by_cases ha : a = t
    · subst ha
      have hzero : ∀ rest : List Nat, a ∉ rest →
          (rest.map (fun d => if d = a then c else 0)).sum = 0 := by
        intro rest
        induction rest with
        | nil => intro _; simp
        | cons b rb ihb =>
          intro hb
          simp only [List.mem_cons] at hb
          push_neg at hb
          have hba : ¬ b = a := fun he => hb.1 he.symm
          simp only [List.map_cons, List.sum_cons, if_neg hba]
          simpa using ihb hb.2
      simp [hzero r hna]
    · rcases List.mem_cons.mp ht with he | ht2
      · exact absurd he.symm ha
      · simp [ha, ih t c hr ht2]

theorem sum_map_const_nat (ds : List Nat) (c : Nat) (G : Nat → Nat)
    (h : ∀ d ∈ ds, G d = c) : (ds.map G).sum = c * ds.length := by
  induction ds with
  | nil => simp
  | cons a r ih =>
    simp only [List.map_cons, List.sum_cons, List.length_cons]
    rw [h a (List.mem_cons_self a r), ih (fun d hd => h d (List.mem_cons_of_mem _ hd))]
    ring

theorem keys_map_pair (ds : List Nat) (g : Nat → List Event) :
    (ds.map (fun d => (d, g d))).map Prod.fst = ds := by
  induction ds with
  | nil => rfl
  | cons a r ih => simp [ih]

theorem sum_map_add_nat (ds : List Nat) (F G : Nat → Nat) :
    (ds.map (fun d => F d + G d)).sum = (ds.map F).sum + (ds.map G).sum := by
  induction ds with
  | nil => rfl
  | cons a r ih => simp [ih]; omega

/-- The facts about one record's contribution to the event index, over the
canonical shape: a fresh-day map carrying one window event per day of ds,
then one trade event added on day t. -/
theorem window_index_facts (ds : List Nat) (t : Nat) (bEv tEv : Event)
    (hnd : ds.Nodup) (hne : tEv.type ≠ bEv.type) :
    ((allEvents (addEvent (ds.map (fun d => (d, [bEv]))) t tEv)).countP
        (fun ev => ev.type == bEv.type) = ds.length) ∧
    (∀ x : Nat, (lookupEvents (addEvent (ds.map (fun d => (d, [bEv]))) t tEv) x).countP
        (fun ev => ev.type == bEv.type) = if x ∈ ds then 1 else 0) ∧
    (((addEvent (ds.map (fun d => (d, [bEv]))) t tEv).filter
        (fun p => p.2.any (fun ev => ev.type == bEv.type))).map Prod.fst = ds) ∧
    ((allEvents (addEvent (ds.map (fun d => (d, [bEv]))) t tEv)).countP
        (fun ev => ev.type == tEv.type) = 1) ∧
    ((lookupEvents (addEvent (ds.map (fun d => (d, [bEv]))) t tEv) t).countP
        (fun ev => ev.type == tEv.type) = 1) ∧
    ((allEvents (addEvent (ds.map (fun d => (d, [bEv]))) t tEv)).length = ds.length + 1) := by
  have hbb : (bEv.type == bEv.type) = true := by simp
  have hbt : (bEv.type == tEv.type) = false := by
    simpa using fun he => hne he.symm
  have htb : (tEv.type == bEv.type) = false := by simpa using hne
  have htt : (tEv.type == tEv.type) = true := by simp
  by_cases htc : t ∈ ds
  · have hshape : addEvent (ds.map (fun d => (d, [bEv]))) t tEv =
        ds.map (fun d => (d, if d = t then [bEv, tEv] else [bEv])) := by
      rw [addEvent_map_mem _ _ _ _ hnd htc]
      apply List.map_congr_left
      intro d _
      by_cases hd : d = t <;> simp [hd]
    rw [hshape]
    have hcount1 : ∀ d ∈ ds,
        (if d = t then [bEv, tEv] else [bEv]).countP (fun ev => ev.type == bEv.type) = 1 := by
      intro d _
      by_cases hd : d = t <;> simp [hd, List.countP_cons, hbb, htb]
    refine ⟨?_, ?_, ?_, ?_, ?_, ?_⟩
    · rw [allEvents_map, sum_map_const_nat _ 1 _ hcount1]
      omega
    · intro x
      rw [lookupEvents_map_nodup _ _ _ hnd]
      by_cases hx : x ∈ ds
      · rw [if_pos hx, if_pos hx]
        exact hcount1 x hx
      · rw [if_neg hx, if_neg hx]
        simp
    · rw [List.filter_map]
      rw [List.filter_eq_self.mpr ?_]
      · exact keys_map_pair _ _
      · intro d _
        by_cases hd : d = t <;> simp [Function.comp, hd, List.any_cons, hbb]
    · rw [allEvents_map]
      have hcongr : ds.map
            (fun d => (if d = t then [bEv, tEv] else [bEv]).countP
              (fun ev => ev.type == tEv.type)) =
          ds.map (fun d => if d = t then 1 else 0) := by
        apply List.map_congr_left
        intro d _
        by_cases hd : d = t <;> simp [hd, List.countP_cons, hbt, htt]
      rw [hcongr, sum_map_if_single _ _ _ hnd htc]
    · rw [lookupEvents_map_nodup _ _ _ hnd, if_pos htc, if_pos rfl]
      simp [List.countP_cons, hbt, htt]
    · rw [allEvents_map_length]
      have hcongr : ds.map (fun d => (if d = t then [bEv, tEv] else [bEv]).length) =
          ds.map (fun d => 1 + (if d = t then 1 else 0)) := by
        apply List.map_congr_left
        intro d _
        by_cases hd : d = t <;> simp [hd]
      rw [hcongr, sum_map_add_nat, sum_map_const_nat _ 1 _ (fun d _ => rfl),
        sum_map_if_single _ _ _ hnd htc]
      omega
  · have hkeys : t ∉ (ds.map (fun d => (d, ([bEv] : List Event)))).map Prod.fst := by
      rw [keys_map_pair]
      exact htc
    have hnd2 : (ds ++ [t]).Nodup := by
      rw [List.nodup_append]
      exact ⟨hnd, List.nodup_singleton _, by simpa using htc⟩
    have hshape : addEvent (ds.map (fun d => (d, [bEv]))) t tEv =
        (ds ++ [t]).map (fun d => (d, if d = t then [tEv] else [bEv])) := by
      rw [addEvent_of_not_mem _ _ _ hkeys, List.map_append]
      congr 1
      · apply List.map_congr_left
        intro d hd
        rw [if_neg]
        intro he
        exact htc (he ▸ hd)
      · simp
    rw [hshape]
    refine ⟨?_, ?_, ?_, ?_, ?_, ?_⟩
    · rw [allEvents_map, List.map_append, List.sum_append]
      rw [sum_map_const_nat _ 1 _ ?_]
      · have h2 : (([t] : List Nat).map
            (fun d => (if d = t then [tEv] else [bEv]).countP
              (fun ev => ev.type == bEv.type))).sum = 0 := by
          simp [List.countP_cons, htb]
        rw [h2]
        omega
      · intro d hd
        have hdt : ¬ d = t := fun he => htc (he ▸ hd)
        rw [if_neg hdt]
        simp [List.countP_cons, hbb]
    · intro x
      rw [lookupEvents_map_nodup _ _ _ hnd2]
      by_cases hx : x ∈ ds
      · have hxm : x ∈ ds ++ [t] := List.mem_append.mpr (Or.inl hx)
        have hxdt : ¬ x = t := fun he => htc (he ▸ hx)
        rw [if_pos hxm, if_pos hx, if_neg hxdt]
        simp [List.countP_cons, hbb]
      · by_cases hxt : x = t
        · have hxm : x ∈ ds ++ [t] := List.mem_append.mpr (Or.inr (by simp [hxt]))
          rw [if_pos hxm, if_neg hx, if_pos hxt]
          simp [List.countP_cons, htb]
        · rw [if_neg ?_, if_neg hx]
          · simp
          · intro hm
            rcases List.mem_append.mp hm with h | h
            · exact hx h
            · exact hxt (by simpa using h)
    · rw [List.filter_map, List.filter_append]
      have hall : ds.filter
            ((fun p : Nat × List Event => p.2.any (fun ev => ev.type == bEv.type)) ∘
              (fun d => (d, if d = t then [tEv] else [bEv]))) = ds := by
        apply List.filter_eq_self.mpr
        intro d hd
        have hne2 : ¬ d = t := fun he => htc (he ▸ hd)
        simp [Function.comp, hne2, List.any_cons, hbb]
      have hdrop : ([t] : List Nat).filter
            ((fun p : Nat × List Event => p.2.any (fun ev => ev.type == bEv.type)) ∘
              (fun d => (d, if d = t then [tEv] else [bEv]))) = [] := by
        simp [Function.comp, List.any_cons, htb]
      rw [hall, hdrop, List.append_nil]
      exact keys_map_pair _ _
    · rw [allEvents_map, List.map_append, List.sum_append]
      rw [sum_map_const_nat _ 0 _ ?_]
      · simp [List.countP_cons, htt]
      · intro d hd
        have hdt : ¬ d = t := fun he => htc (he ▸ hd)
        rw [if_neg hdt]
        simp [List.countP_cons, hbt]
    · have htm : t ∈ ds ++ [t] := List.mem_append.mpr (Or.inr (by simp))
      rw [lookupEvents_map_nodup _ _ _ hnd2, if_pos htm, if_pos rfl]
      simp [List.countP_cons, htt]
    · rw [allEvents_map_length, List.map_append, List.sum_append]
      rw [sum_map_const_nat _ 1 _ ?_]
      · simp
      · intro d hd
        have hdt : ¬ d = t := fun he => htc (he ▸ hd)
        rw [if_neg hdt]
        simp

/-- C3: a record with both bookbuilding bounds present (start at most end)
contributes to the event index exactly one bookbuilding-type event per
calendar day of the closed window, the days carrying them being the window
days in ascending order, plus exactly one trade-type event on the trade date;
(end - start + 1) + 1 events in total. -/
theorem C3_event_expansion (item : Item) (bs be td : Date)
    (hbs : item.bookbuilding_start = some bs) (hbe : item.bookbuilding_end = some be)
    (htd : item.trade_date = some td) (hle : bs.toOrd ≤ be.toOrd)
    (hty : item.bookbuilding_type.getD BOOK_TYPE_DEFAULT ≠ TRADE_TYPE) :
    ((allEvents (build_event_index [item])).countP
        (fun ev => ev.type == item.bookbuilding_type.getD BOOK_TYPE_DEFAULT)
      = (be.toOrd - bs.toOrd) + 1) ∧
    (∀ x : Nat,
      (lookupEvents (build_event_index [item]) x).countP
          (fun ev => ev.type == item.bookbuilding_type.getD BOOK_TYPE_DEFAULT)
        = if bs.toOrd ≤ x ∧ x ≤ be.toOrd then 1 else 0) ∧
    (((build_event_index [item]).filter
        (fun p => p.2.any
          (fun ev => ev.type == item.bookbuilding_type.getD BOOK_TYPE_DEFAULT))).map Prod.fst
      = List.range' bs.toOrd (be.toOrd + 1 - bs.toOrd)) ∧
    ((allEvents (build_event_index [item])).countP (fun ev => ev.type == TRADE_TYPE) = 1) ∧
    ((lookupEvents (build_event_index [item]) td.toOrd).countP
        (fun ev => ev.type == TRADE_TYPE) = 1) ∧
    ((allEvents (build_event_index [item])).length = ((be.toOrd - bs.toOrd) + 1) + 1) := by
  have hnd : (List.range' bs.toOrd (be.toOrd + 1 - bs.toOrd)).Nodup := List.nodup_range' _ _
  have hlen : (List.range' bs.toOrd (be.toOrd + 1 - bs.toOrd)).length =
      (be.toOrd - bs.toOrd) + 1 := by
    rw [List.length_range']
    omega
  have hmem : ∀ x : Nat,
      x ∈ List.range' bs.toOrd (be.toOrd + 1 - bs.toOrd) ↔ bs.toOrd ≤ x ∧ x ≤ be.toOrd := by
    intro x
    rw [List.mem_range'_1]
    omega
  have hw := window_index_facts (List.range' bs.toOrd (be.toOrd + 1 - bs.toOrd)) td.toOrd
    (Event.mk (item.bookbuilding_type.getD BOOK_TYPE_DEFAULT)
      (item.bookbuilding_label.getD BOOK_LABEL_DEFAULT) item)
    (Event.mk TRADE_TYPE (item.trade_label.getD TRADE_LABEL_DEFAULT) item)
    hnd (fun h => hty h.symm)
  have hshape0 : build_event_index [item] =
      addEvent
        ((List.range' bs.toOrd (be.toOrd + 1 - bs.toOrd)).map
          (fun d => (d, [Event.mk (item.bookbuilding_type.getD BOOK_TYPE_DEFAULT)
            (item.bookbuilding_label.getD BOOK_LABEL_DEFAULT) item])))
        td.toOrd (Event.mk TRADE_TYPE (item.trade_label.getD TRADE_LABEL_DEFAULT) item) := by
    show itemEventsStep [] item = _
    simp only [itemEventsStep, hbs, hbe, htd]
    rw [foldl_addEvent_fresh _ _ [] hnd (by simp)]
    simp
  refine ⟨?_, ?_, ?_, ?_, ?_, ?_⟩
  · rw [hshape0]
    exact hw.1.trans hlen
  · intro x
    rw [hshape0]
    exact (hw.2.1 x).trans (if_congr (hmem x) rfl rfl)
  · rw [hshape0]
    exact hw.2.2.1
  · rw [hshape0]
    exact hw.2.2.2.1
  · rw [hshape0]
    exact hw.2.2.2.2.1
  · rw [hshape0]
    exact hw.2.2.2.2.2.trans (by omega)

/-- C3 witness: the window 2024-06-03 to 2024-06-05 with trade date
2024-06-10 yields 3 bookbuilding-type events, 1 trade-type event, 4 events in
total. -/
theorem C3_event_expansion_witness :
    ((allEvents (build_event_index [{ baseItem with
          bookbuilding_start := some (Date.mk 2024 6 3),
          bookbuilding_end := some (Date.mk 2024 6 5),
          trade_date := some (Date.mk 2024 6 10) }])).countP
        (fun ev => ev.type ==
          ({ baseItem with
              bookbuilding_start := some (Date.mk 2024 6 3),
              bookbuilding_end := some (Date.mk 2024 6 5),
              trade_date := some (Date.mk 2024 6 10) } : Item).bookbuilding_type.getD
            BOOK_TYPE_DEFAULT) = 3) ∧
    ((allEvents (build_event_index [{ baseItem with
          bookbuilding_start := some (Date.mk 2024 6 3),
          bookbuilding_end := some (Date.mk 2024 6 5),
          trade_date := some (Date.mk 2024 6 10) }])).countP
        (fun ev => ev.type == TRADE_TYPE) = 1) ∧
    ((allEvents (build_event_index [{ baseItem with
          bookbuilding_start := some (Date.mk 2024 6 3),
          bookbuilding_end := some (Date.mk 2024 6 5),
          trade_date := some (Date.mk 2024 6 10) }])).length = 4) := by
  have h := C3_event_expansion
    { baseItem with
      bookbuilding_start := some (Date.mk 2024 6 3),
      bookbuilding_end := some (Date.mk 2024 6 5),
      trade_date := some (Date.mk 2024 6 10) }
    (Date.mk 2024 6 3) (Date.mk 2024 6 5) (Date.mk 2024 6 10)
    rfl rfl rfl (by decide) (by decide)
  refine ⟨h.1.trans (by decide), h.2.2.2.1, h.2.2.2.2.2.trans (by decide)⟩

theorem addEvent_values_nonempty (m : List (Nat × List Event)) (d : Nat) (ev : Event)
    (h : ∀ p ∈ m, p.2 ≠ []) : ∀ p ∈ addEvent m d ev, p.2 ≠ [] := by
  induction m with
  | nil =>
    intro p hp
    simp only [addEvent, List.mem_singleton] at hp
    subst hp
    simp
  | cons q rest ih =>
    obtain ⟨k, es⟩ := q
    intro p hp
    by_cases hk : k = d
    · simp only [addEvent, if_pos hk, List.mem_cons] at hp
      rcases hp with rfl | hp
      · simp
      · exact h p (List.mem_cons_of_mem _ hp)
    · simp only [addEvent, if_neg hk, List.mem_cons] at hp
      rcases hp with rfl | hp
      · exact h (k, es) (List.mem_cons_self _ _)
      · exact ih (fun q hq => h q (List.mem_cons_of_mem _ hq)) p hp

theorem foldl_addEvent_values_nonempty (ev : Event) :
    ∀ (ds : List Nat) (m : List (Nat × List Event)), (∀ p ∈ m, p.2 ≠ []) →
      ∀ p ∈ ds.foldl (fun acc d => addEvent acc d ev) m, p.2 ≠ [] := by
  intro ds
  induction ds with
  | nil => intro m h p hp; exact h p hp
  | cons a r ih =>
    intro m h p hp
    simp only [List.foldl_cons] at hp
    exact ih (addEvent m a ev) (addEvent_values_nonempty m a ev h) p hp

theorem itemEventsStep_values_nonempty (m : List (Nat × List Event)) (item : Item)
    (h : ∀ p ∈ m, p.2 ≠ []) : ∀ p ∈ itemEventsStep m item, p.2 ≠ [] := by
  rw [itemEventsStep]
  have h1 : ∀ p ∈ (match item.bookbuilding_start, item.bookbuilding_end with
      | some bs, some be =>
        (List.range' bs.toOrd (be.toOrd + 1 - bs.toOrd)).foldl
          (fun acc d => addEvent acc d
            { type := item.bookbuilding_type.getD BOOK_TYPE_DEFAULT,
              label := item.bookbuilding_label.getD BOOK_LABEL_DEFAULT, item := item }) m
      | _, _ => m), p.2 ≠ [] := by
    rcases item.bookbuilding_start with _ | bs <;> rcases item.bookbuilding_end with _ | be
    · exact h
    · exact h
    · exact h
    · exact foldl_addEvent_values_nonempty _ _ m h
  rcases item.trade_date with _ | t
  · exact h1
  · exact addEvent_values_nonempty _ _ _ h1

/-- C9: in the map built by build_event_index, every day key carries a
non-empty list of events. -/
theorem C9_event_index_values_nonempty (items : List Item) :
    ∀ p ∈ build_event_index items, p.2 ≠ [] := by
  have hgen : ∀ (l : List Item) (m : List (Nat × List Event)), (∀ p ∈ m, p.2 ≠ []) →
      ∀ p ∈ l.foldl itemEventsStep m, p.2 ≠ [] := by
    intro l
    induction l with
    | nil => intro m h p hp; exact h p hp
    | cons a r ih =>
      intro m h p hp
      simp only [List.foldl_cons] at hp
      exact ih (itemEventsStep m a) (itemEventsStep_values_nonempty m a h) p hp
  exact hgen items [] (by simp)

/-- C9 witness: on a concrete one-record index the entry of the trade day is
non-empty. -/
theorem C9_event_index_values_nonempty_witness :
    ((Date.mk 2024 6 10).toOrd,
      [Event.mk TRADE_TYPE TRADE_LABEL_DEFAULT
        { baseItem with trade_date := some (Date.mk 2024 6 10) }]).2 ≠ [] :=
  C9_event_index_values_nonempty
    [{ baseItem with trade_date := some (Date.mk 2024 6 10) }]
    ((Date.mk 2024 6 10).toOrd,
      [Event.mk TRADE_TYPE TRADE_LABEL_DEFAULT
        { baseItem with trade_date := some (Date.mk 2024 6 10) }])
    (by decide)

/-! ## Lemmas: term-sheet selection -/

theorem rankLtB_asymm (a b : Nat × Nat × Int) (h : rankLtB a b = true) :
    rankLtB b a = false := by
  simp only [rankLtB, Bool.or_eq_true, Bool.and_eq_true, decide_eq_true_eq,
    beq_iff_eq] at h
  simp only [rankLtB, Bool.or_eq_false_iff, Bool.and_eq_false_iff,
    decide_eq_false_iff_not, beq_eq_false_iff_ne]
  omega

theorem rankLtB_to_le (a b : Nat × Nat × Int) (h : rankLtB a b = true) :
    rankLeB a b = true := by
  rw [rankLeB, rankLtB_asymm a b h]
  rfl

theorem rankLeB_refl (a : Nat × Nat × Int) : rankLeB a a = true := by
  simp only [rankLeB, Bool.not_eq_true']
  simp only [rankLtB, Bool.or_eq_false_iff, Bool.and_eq_false_iff,
    decide_eq_false_iff_not, beq_eq_false_iff_ne]
  omega

theorem rankLeB_trans (a b c : Nat × Nat × Int) (h1 : rankLeB a b = true)
    (h2 : rankLeB b c = true) : rankLeB a c = true := by
  simp only [rankLeB, Bool.not_eq_true'] at h1 h2 ⊢
  simp only [rankLtB, Bool.or_eq_false_iff, Bool.and_eq_false_iff,
    decide_eq_false_iff_not, beq_eq_false_iff_ne] at h1 h2 ⊢
  omega

theorem rankLeB_of_not_lt (a b : Nat × Nat × Int) (h : rankLtB a b = false) :
    rankLeB b a = true := by
  rw [rankLeB, h]
  rfl

theorem foldl_rank_min : ∀ (fs : List Filing) (best : Filing),
    (fs.foldl (fun acc x =>
        if rankLtB (_term_sheet_rank x) (_term_sheet_rank acc) then x else acc) best = best ∨
      fs.foldl (fun acc x =>
        if rankLtB (_term_sheet_rank x) (_term_sheet_rank acc) then x else acc) best ∈ fs) ∧
    rankLeB
      (_term_sheet_rank (fs.foldl (fun acc x =>
        if rankLtB (_term_sheet_rank x) (_term_sheet_rank acc) then x else acc) best))
      (_term_sheet_rank best) = true ∧
    ∀ x ∈ fs, rankLeB
      (_term_sheet_rank (fs.foldl (fun acc x =>
        if rankLtB (_term_sheet_rank x) (_term_sheet_rank acc) then x else acc) best))
      (_term_sheet_rank x) = true := by
  intro fs
  induction fs with
  | nil =>
    intro best
    refine ⟨Or.inl rfl, rankLeB_refl _, ?_⟩
    intro x hx
    cases hx
  | cons a t ih =>
    intro best
    simp only [List.foldl_cons]
    by_cases h : rankLtB (_term_sheet_rank a) (_term_sheet_rank best) = true
    · rw [if_pos h]
      rcases ih a with ⟨hmem, hlea, hall⟩
      refine ⟨?_, ?_, ?_⟩
      · rcases hmem with he | hm
        · exact Or.inr (by rw [he]; exact List.mem_cons_self a t)
        · exact Or.inr (List.mem_cons_of_mem _ hm)
      · exact rankLeB_trans _ _ _ hlea (rankLtB_to_le _ _ h)
      · intro x hx
        rcases List.mem_cons.mp hx with rfl | hx2
        · exact hlea
        · exact hall x hx2
    · rw [if_neg h]
      rcases ih best with ⟨hmem, hlea, hall⟩
      refine ⟨?_, hlea, ?_⟩
      · rcases hmem with he | hm
        · exact Or.inl he
        · exact Or.inr (List.mem_cons_of_mem _ hm)
      · intro x hx
        rcases List.mem_cons.mp hx with rfl | hx2
        · exact rankLeB_trans _ _ _ hlea
            (rankLeB_of_not_lt _ _ (Bool.not_eq_true _ ▸ h))
        · exact hall x hx2

/-- C5 (amended): on a non-empty filing list, select_term_sheet returns a
filing of the list whose 3-key rank (keyword position over the implemented
priority list: application proof, phip, term sheet, hearing information pack,
offering circular, prospectus, announcement, allotment results; then
application-proof provenance; then recency) is lexicographically minimal; in
particular the older application-proof Prospectus beats the recent
Announcement. -/
theorem C5_select_term_sheet_min :
    (∀ (f : Filing) (fs : List Filing), ∃ m : Filing,
      select_term_sheet (f :: fs) = some m ∧ m ∈ f :: fs ∧
        ∀ x ∈ f :: fs, rankLeB (_term_sheet_rank m) (_term_sheet_rank x) = true) ∧
    select_term_sheet [annRecentFiling, prospProofFiling] = some prospProofFiling := by
  constructor
  · intro f fs
    rcases foldl_rank_min fs f with ⟨hmem, hlea, hall⟩
    refine ⟨_, rfl, ?_, ?_⟩
    · rcases hmem with he | hm
      · exact by rw [he]; exact List.mem_cons_self f fs
      · exact List.mem_cons_of_mem _ hm
    · intro x hx
      rcases List.mem_cons.mp hx with rfl | hx2
      · exact hlea
      · exact hall x hx2
  · decide

/-- C5 witness: the minimality statement applied to the singleton list
holding the application-proof Prospectus filing. -/
theorem C5_select_term_sheet_min_witness :
    ∃ m : Filing,
      select_term_sheet [prospProofFiling] = some m ∧ m ∈ [prospProofFiling] ∧
        ∀ x ∈ [prospProofFiling],
          rankLeB (_term_sheet_rank m) (_term_sheet_rank x) = true :=
  C5_select_term_sheet_min.1 prospProofFiling []

/-- C5 counterexample: under the claim's own keyword list a filing titled
PHIP matches nothing and must rank after a Prospectus filing, yet the code
selects the PHIP filing (its list ranks phip second); the ranking the claim
states disagrees with the implemented selection at this input. -/
theorem C5_select_term_sheet_min_counterexample :
    select_term_sheet [phipFiling, prospPlainFiling] = some phipFiling ∧
    rankLtB (claimTermSheetRank prospPlainFiling) (claimTermSheetRank phipFiling) = true := by
  decide

/-- C8: extract_date_range first tries the compact D-D Month YYYY pattern and
returns its two days on a parse; otherwise it scans for D Month YYYY dates:
two or more parseable yields (first, second), exactly one yields the pair of
that date with itself, none yields (none, none); with the concrete vectors of
the claim. -/
theorem C8_extract_date_range :
    (extract_date_range "Book-building: 3-7 June 2024".toList =
      (some (Date.mk 2024 6 3), some (Date.mk 2024 6 7))) ∧
    (extract_date_range "Listed on 10 June 2024".toList =
      (some (Date.mk 2024 6 10), some (Date.mk 2024 6 10))) ∧
    (extract_date_range "no dates here".toList = (none, none)) ∧
    (extract_date_range [] = (none, none)) ∧
    (∀ (t : LStr) (s e : Date), t ≠ [] → _parse_compact_range t = some (s, e) →
      extract_date_range t = (some s, some e)) ∧
    (∀ t : LStr, t ≠ [] → _parse_compact_range t = none →
      (∀ a b r, extractedDates t = a :: b :: r → extract_date_range t = (some a, some b)) ∧
      (∀ a, extractedDates t = [a] → extract_date_range t = (some a, some a)) ∧
      (extractedDates t = [] → extract_date_range t = (none, none))) := by
  refine ⟨by decide, by decide, by decide, by decide, ?_, ?_⟩
  · intro t s e hne h
    have hie : t.isEmpty = false := by
      cases t
      · exact absurd rfl hne
      · rfl
    simp only [extract_date_range, hie, Bool.false_eq_true, if_false, h]
  · intro t hne h
    have hie : t.isEmpty = false := by
      cases t
      · exact absurd rfl hne
      · rfl
    refine ⟨?_, ?_, ?_⟩
    · intro a b r hd
      simp only [extract_date_range, hie, Bool.false_eq_true, if_false, h, hd]
    · intro a hd
      simp only [extract_date_range, hie, Bool.false_eq_true, if_false, h, hd]
    · intro hd
      simp only [extract_date_range, hie, Bool.false_eq_true, if_false, h, hd]

/-- C1: when the three live adapters and the legacy calendar fetch all raise,
fetch_ipo_calendar returns (it is total in the model), hands back the shifted
sample with meta source sample, and its errors list holds exactly one
advisory string per failed source. -/
theorem C1_fetch_all_fail_falls_back (env : FetchEnv) (e1 e2 e3 e4 : String)
    (h1 : env.listingReport = Except.error e1) (h2 : env.aastocks = Except.error e2)
    (h3 : env.appProof = Except.error e3) (h4 : env.hkexCalendar = Except.error e4) :
    fetch_ipo_calendar env true =
      (load_sample_calendar env,
       { source := "sample",
         errors := ["HKEX new listing report fetch failed: " ++ e1,
                    "AASTOCKS upcoming IPO fetch failed: " ++ e2,
                    "HKEX application proof fetch failed: " ++ e3,
                    "HKEX calendar fetch failed: " ++ e4] }) ∧
    (fetch_ipo_calendar env true).2.source = "sample" ∧
    (fetch_ipo_calendar env true).2.errors ≠ [] ∧
    (fetch_ipo_calendar env true).2.errors.length = 4 := by
  have hmain : fetch_ipo_calendar env true =
      (load_sample_calendar env,
       { source := "sample",
         errors := ["HKEX new listing report fetch failed: " ++ e1,
                    "AASTOCKS upcoming IPO fetch failed: " ++ e2,
                    "HKEX application proof fetch failed: " ++ e3,
                    "HKEX calendar fetch failed: " ++ e4] }) := by
    simp [fetch_ipo_calendar, h1, h2, h3, h4]
  refine ⟨hmain, ?_, ?_, ?_⟩
  · rw [hmain]
  · rw [hmain]
    simp
  · rw [hmain]
    rfl

/-- C1 witness: the fallback at a concrete all-failing environment. -/
theorem C1_fetch_all_fail_falls_back_witness :
    fetch_ipo_calendar allFailEnv true =
      (load_sample_calendar allFailEnv,
       { source := "sample",
         errors := ["HKEX new listing report fetch failed: " ++ "report down",
                    "AASTOCKS upcoming IPO fetch failed: " ++ "aastocks down",
                    "HKEX application proof fetch failed: " ++ "app proof down",
                    "HKEX calendar fetch failed: " ++ "calendar down"] }) :=
  (C1_fetch_all_fail_falls_back allFailEnv
    "report down" "aastocks down" "app proof down" "calendar down"
    rfl rfl rfl rfl).1

/-! ## Lemmas: strings and stock-code normalization -/

theorem dropWhile_dropWhile (p : Char → Bool) (l : LStr) :
    (l.dropWhile p).dropWhile p = l.dropWhile p := by
  induction l with
  | nil => rfl
  | cons x xs ih =>
    by_cases h : p x
    · simp [List.dropWhile_cons, h, ih]
    · simp [List.dropWhile_cons, h]

theorem dropWhile_head?_false (p : Char → Bool) (l : LStr) (c : Char)
    (hc : (l.dropWhile p).head? = some c) : p c = false := by
  induction l with
  | nil => simp at hc
  | cons x xs ih =>
    by_cases h : p x
    · rw [List.dropWhile_cons, if_pos h] at hc
      exact ih hc
    · rw [List.dropWhile_cons, if_neg h] at hc
      simp only [List.head?_cons, Option.some_inj] at hc
      subst hc
      simpa using h

theorem dropWhile_eq_self_of_head (p : Char → Bool) (l : LStr)
    (h : ∀ c, l.head? = some c → p c = false) : l.dropWhile p = l := by
  cases l with
  | nil => rfl
  | cons x xs => simp [List.dropWhile_cons, h x rfl]

theorem pyStrip_idem (s : LStr) : pyStrip (pyStrip s) = pyStrip s := by
  have hA : (pyStrip s).dropWhile Char.isWhitespace = pyStrip s := by
    apply dropWhile_eq_self_of_head
    intro c hc
    rw [pyStrip, List.head?_reverse] at hc
    rcases hu : (s.dropWhile Char.isWhitespace).reverse.dropWhile Char.isWhitespace with
      _ | ⟨d, u2⟩
    · rw [hu] at hc
      simp at hc
    · have hne : (s.dropWhile Char.isWhitespace).reverse.dropWhile Char.isWhitespace ≠ [] := by
        rw [hu]
        simp
      have hsuf : ∃ pre,
          pre ++ (s.dropWhile Char.isWhitespace).reverse.dropWhile Char.isWhitespace =
            (s.dropWhile Char.isWhitespace).reverse :=
        List.dropWhile_suffix _
      rcases hsuf with ⟨pre, hpre⟩
      have hlast :
          ((s.dropWhile Char.isWhitespace).reverse.dropWhile Char.isWhitespace).getLast? =
            (s.dropWhile Char.isWhitespace).reverse.getLast? := by
        conv_rhs => rw [← hpre]
        exact (List.getLast?_append_of_ne_nil pre hne).symm
      rw [hlast, List.getLast?_reverse] at hc
      exact dropWhile_head?_false Char.isWhitespace s c hc
  have hB : (pyStrip s).reverse.dropWhile Char.isWhitespace = (pyStrip s).reverse := by
    rw [pyStrip, List.reverse_reverse]
    exact dropWhile_dropWhile _ _
  show (((pyStrip s).dropWhile Char.isWhitespace).reverse.dropWhile
      Char.isWhitespace).reverse = pyStrip s
  rw [hA, hB, List.reverse_reverse]

theorem removeAllAux_no_occurrence (pat : LStr) :
    ∀ (fuel : Nat) (s : LStr), s.length ≤ fuel → containsSub pat s = false →
      removeAllAux pat fuel s = s := by
  intro fuel
  induction fuel with
  | zero =>
    intro s hlen _
    match s with
    | [] => rfl
  | succ fuel ih =>
    intro s hlen hcon
    match s with
    | [] => rfl
    | c :: rest =>
      rw [containsSub] at hcon
      rcases Bool.or_eq_false_iff.mp hcon with ⟨hpre, hrest⟩
      rw [removeAllAux, if_neg]
      · rw [ih rest (by simpa using Nat.le_of_succ_le_succ hlen) hrest]
      · rintro ⟨_, hp⟩
        rw [hpre] at hp
        cases hp

theorem removeAll_no_occurrence (pat s : LStr) (h : containsSub pat s = false) :
    removeAll pat s = s :=
  removeAllAux_no_occurrence pat s.length s (Nat.le_refl _) h

theorem containsSub_of_isPrefixOf (pat s : LStr) (h : pat.isPrefixOf s = true) :
    containsSub pat s = true := by
  cases s with
  | nil =>
    cases pat with
    | nil => rfl
    | cons p ps => simp [List.isPrefixOf] at h
  | cons c rest =>
    rw [containsSub, h]
    rfl

theorem isPrefixOf_eq_false_of_containsSub (pat s : LStr) (hne : pat ≠ [])
    (h : containsSub pat s = false) : pat.isPrefixOf s = false := by
  cases s with
  | nil =>
    cases pat with
    | nil => exact absurd rfl hne
    | cons p ps => rfl
  | cons c rest =>
    rw [containsSub] at h
    exact (Bool.or_eq_false_iff.mp h).1

theorem containsSub_dotHK_of_HK (s : LStr)
    (h : containsSub ['H', 'K'] s = false) : containsSub ['.', 'H', 'K'] s = false := by
  induction s with
  | nil => rfl
  | cons c rest ih =>
    rw [containsSub] at h ⊢
    rcases Bool.or_eq_false_iff.mp h with ⟨hpre, hrest⟩
    apply Bool.or_eq_false_iff.mpr
    refine ⟨?_, ih hrest⟩
    by_cases hc : c = '.'
    · subst hc
      have h2 : (['H', 'K'] : LStr).isPrefixOf rest = false :=
        isPrefixOf_eq_false_of_containsSub _ _ (by simp) hrest
      simp [List.isPrefixOf, h2]
    · have hcc : ¬ ('.' : Char) = c := fun he => hc he.symm
      simp [List.isPrefixOf, hcc]

theorem containsSub_head_mem (p : Char) (ps s : LStr)
    (h : containsSub (p :: ps) s = true) : p ∈ s := by
  induction s with
  | nil => simp [containsSub] at h
  | cons c rest ih =>
    rw [containsSub, Bool.or_eq_true] at h
    rcases h with hpre | hrest
    · rcases List.isPrefixOf_iff_prefix.mp hpre with ⟨t, ht⟩
      rw [← ht]
      simp
    · exact List.mem_cons_of_mem _ (ih hrest)

theorem digitChar_isDigit (k : Nat) (hk : k < 10) : (Char.ofNat (48 + k)).isDigit = true := by
  interval_cases k <;> decide

theorem digitChar_toNat (k : Nat) (hk : k < 10) : (Char.ofNat (48 + k)).toNat = 48 + k := by
  interval_cases k <;> decide

theorem natDigitsAux_all_digit : ∀ (fuel n : Nat),
    (natDigitsAux fuel n).all Char.isDigit = true := by
  intro fuel
  induction fuel with
  | zero => intro n; rfl
  | succ fuel ih =>
    intro n
    rw [natDigitsAux]
    by_cases h : n < 10
    · rw [if_pos h]
      simp [digitChar_isDigit n h]
    · rw [if_neg h, List.all_append]
      simp [ih (n / 10), digitChar_isDigit (n % 10) (Nat.mod_lt n (by norm_num))]

theorem natDigitsAux_ne_nil (fuel n : Nat) (h : 1 ≤ fuel) : natDigitsAux fuel n ≠ [] := by
  match fuel, h with
  | fuel + 1, _ =>
    rw [natDigitsAux]
    by_cases hn : n < 10
    · rw [if_pos hn]
      simp
    · rw [if_neg hn]
      simp

theorem foldl_digits_aux : ∀ (fuel n acc : Nat), n < 10 ^ fuel →
    (natDigitsAux fuel n).foldl (fun a c => a * 10 + (c.toNat - 48)) acc =
      acc * 10 ^ (natDigitsAux fuel n).length + n := by
  intro fuel
  induction fuel with
  | zero =>
    intro n acc h
    have : n = 0 := by simpa using h
    subst this
    simp [natDigitsAux]
  | succ fuel ih =>
    intro n acc h
    rw [natDigitsAux]
    by_cases hn : n < 10
    · rw [if_pos hn]
      simp only [List.foldl_cons, List.foldl_nil, List.length_cons, List.length_nil,
        digitChar_toNat n hn]
      simp
    · rw [if_neg hn]
      have hd : n / 10 < 10 ^ fuel := by
        rw [Nat.div_lt_iff_lt_mul (by norm_num : (0 : Nat) < 10)]
        calc n < 10 ^ (fuel + 1) := h
        _ = 10 ^ fuel * 10 := pow_succ 10 fuel
      rw [List.foldl_append, ih (n / 10) acc hd]
      have hm : (Char.ofNat (48 + n % 10)).toNat = 48 + n % 10 :=
        digitChar_toNat (n % 10) (Nat.mod_lt n (by norm_num))
      simp only [List.foldl_cons, List.foldl_nil, hm, List.length_append, List.length_cons,
        List.length_nil]
      rw [Nat.add_zero, pow_succ, ← mul_assoc]
      generalize acc * 10 ^ (natDigitsAux fuel (n / 10)).length = A
      omega

theorem small_lt_pow (n : Nat) : n < 10 ^ (n + 1) := by
  induction n with
  | zero => norm_num
  | succ n ih =>
    have h2 : 10 ^ (n + 1) < 10 ^ (n + 2) := Nat.pow_lt_pow_succ (by norm_num)
    omega

theorem natOfDigits_natDigits (n : Nat) : natOfDigits (natDigits n) = n := by
  rw [natOfDigits, natDigits, foldl_digits_aux (n + 1) n 0 (small_lt_pow n)]
  simp

theorem foldl_zeros (k : Nat) :
    (List.replicate k '0').foldl (fun a c => a * 10 + (c.toNat - 48)) 0 = 0 := by
  induction k with
  | zero => rfl
  | succ k ih =>
    rw [List.replicate_succ, List.foldl_cons]
    simpa using ih

theorem natOfDigits_padTo5 (n : Nat) : natOfDigits (padTo5 n) = n := by
  rw [natOfDigits, padTo5, List.foldl_append, foldl_zeros]
  exact natOfDigits_natDigits n

theorem padTo5_all_digit (n : Nat) : (padTo5 n).all Char.isDigit = true := by
  rw [padTo5, List.all_append, Bool.and_eq_true]
  refine ⟨?_, natDigitsAux_all_digit _ _⟩
  rw [List.all_eq_true]
  intro c hc
  rw [List.eq_of_mem_replicate hc]
  decide

theorem padTo5_ne_nil (n : Nat) : padTo5 n ≠ [] := by
  rw [padTo5]
  intro h
  rcases List.append_eq_nil.mp h with ⟨_, h2⟩
  exact natDigitsAux_ne_nil (n + 1) n (by omega) h2

theorem isPyDigits_padTo5 (n : Nat) : isPyDigits (padTo5 n) = true := by
  rw [isPyDigits, Bool.and_eq_true]
  refine ⟨?_, padTo5_all_digit n⟩
  cases hp : padTo5 n with
  | nil => exact absurd hp (padTo5_ne_nil n)
  | cons a l => rfl

theorem isDigit_not_ws (c : Char) (h : c.isDigit = true) : c.isWhitespace = false := by
  cases hw : c.isWhitespace
  · rfl
  · exfalso
    rw [Char.isWhitespace] at hw
    simp only [Bool.or_eq_true, decide_eq_true_eq] at hw
    rcases hw with ((h1 | h1) | h1) | h1 <;> (subst h1; exact absurd h (by decide))

theorem dropWhile_ws_of_digits (s : LStr) (h : s.all Char.isDigit = true) :
    s.dropWhile Char.isWhitespace = s := by
  apply dropWhile_eq_self_of_head
  intro c hc
  rcases List.head?_eq_some_iff.mp hc with ⟨ys, hys⟩
  have hcm : c ∈ s := by rw [hys]; simp
  exact isDigit_not_ws c (List.all_eq_true.mp h c hcm)

theorem pyStrip_of_all_digits (s : LStr) (h : s.all Char.isDigit = true) : pyStrip s = s := by
  rw [pyStrip, dropWhile_ws_of_digits s h,
    dropWhile_ws_of_digits s.reverse (by simpa using h), List.reverse_reverse]

theorem containsSub_HK_of_all_digits (s : LStr) (h : s.all Char.isDigit = true) :
    containsSub ['H', 'K'] s = false := by
  cases hcs : containsSub ['H', 'K'] s
  · rfl
  · exfalso
    have hm := containsSub_head_mem 'H' ['K'] s hcs
    have hd := List.all_eq_true.mp h _ hm
    exact absurd hd (by decide)

theorem all_digits_ne_single (s : LStr) (c : Char) (h : s.all Char.isDigit = true)
    (hc : c.isDigit = false) : s ≠ [c] := by
  intro he
  rw [he, List.all_cons] at h
  rw [hc] at h
  exact absurd h (by decide)

theorem normalize_stock_code_cases (value : LStr) :
    normalize_stock_code value = [] ∨
    (∃ n, normalize_stock_code value = padTo5 n) ∨
    (normalize_stock_code value = stockCodeResidue value ∧
      isPyDigits (stockCodeResidue value) = false) := by
  simp only [normalize_stock_code]
  by_cases h1 : pyStrip value = [] ∨ pyStrip value = [quoteChar] ∨ pyStrip value = ['-']
  · rw [if_pos h1]
    exact Or.inl rfl
  · rw [if_neg h1]
    by_cases h2 : isPyDigits (stockCodeResidue value) = true
    · rw [if_pos h2]
      exact Or.inr (Or.inl ⟨_, rfl⟩)
    · rw [if_neg h2]
      exact Or.inr (Or.inr ⟨rfl, Bool.not_eq_true _ ▸ h2⟩)

theorem normalize_padTo5 (n : Nat) : normalize_stock_code (padTo5 n) = padTo5 n := by
  have hall := padTo5_all_digit n
  have hstrip : pyStrip (padTo5 n) = padTo5 n := pyStrip_of_all_digits _ hall
  have hHK : containsSub ['H', 'K'] (padTo5 n) = false := containsSub_HK_of_all_digits _ hall
  have hdot := containsSub_dotHK_of_HK _ hHK
  have hres : stockCodeResidue (padTo5 n) = padTo5 n := by
    rw [stockCodeResidue, hstrip, removeAll_no_occurrence _ _ hdot,
      removeAll_no_occurrence _ _ hHK, hstrip]
  simp only [normalize_stock_code]
  rw [if_neg ?_, hres, if_pos (isPyDigits_padTo5 n), natOfDigits_padTo5]
  rintro (he | he | he)
  · rw [hstrip] at he
    exact padTo5_ne_nil n he
  · rw [hstrip] at he
    exact all_digits_ne_single _ quoteChar hall (by decide) he
  · rw [hstrip] at he
    exact all_digits_ne_single _ '-' hall (by decide) he

/-- C2 (amended): normalize_stock_code strips whitespace and the literal HK
and .HK substrings; an all-digit residue is zero-padded to at least five
characters; a trimmed input that is empty, the quote character or a dash
gives the empty string; any other non-numeric residue is returned unchanged
(an empty residue gives the empty string); with the claim's concrete
vectors. -/
theorem C2_normalize_stock_code_spec :
    (∀ s : LStr, pyStrip s = [] ∨ pyStrip s = [quoteChar] ∨ pyStrip s = ['-'] →
      normalize_stock_code s = []) ∧
    (∀ s : LStr, isPyDigits (stockCodeResidue s) = true →
      normalize_stock_code s = padTo5 (natOfDigits (stockCodeResidue s))) ∧
    (∀ s : LStr, isPyDigits (stockCodeResidue s) = false →
      ¬(pyStrip s = [] ∨ pyStrip s = [quoteChar] ∨ pyStrip s = ['-']) →
      normalize_stock_code s = stockCodeResidue s) ∧
    (normalize_stock_code "1".toList = "00001".toList) ∧
    (normalize_stock_code "88888".toList = "88888".toList) ∧
    (normalize_stock_code "00700.HK".toList = normalize_stock_code "700".toList) ∧
    (normalize_stock_code "00700.HK".toList = "00700".toList) ∧
    (normalize_stock_code [] = []) ∧
    (normalize_stock_code "-".toList = []) ∧
    (normalize_stock_code [quoteChar] = []) := by
  refine ⟨?_, ?_, ?_, by decide, by decide, by decide, by decide, by decide, by decide,
    by decide⟩
  · intro s h
    simp only [normalize_stock_code]
    rw [if_pos h]
  · intro s hdig
    simp only [normalize_stock_code]
    by_cases h1 : pyStrip s = [] ∨ pyStrip s = [quoteChar] ∨ pyStrip s = ['-']
    · exfalso
      unfold stockCodeResidue at hdig
      rcases h1 with he | he | he <;> (rw [he] at hdig; exact absurd hdig (by decide))
    · rw [if_neg h1, if_pos hdig]
  · intro s hdig hpl
    simp only [normalize_stock_code]
    rw [if_neg hpl, if_neg]
    rw [hdig]
    simp

/-- C2 counterexample: a non-numeric residue is returned unchanged, not
mapped to the empty string as the claim states. -/
theorem C2_normalize_stock_code_spec_counterexample :
    normalize_stock_code "ABC".toList = "ABC".toList ∧ "ABC".toList ≠ ([] : LStr) := by
  decide

/-- C10 (amended): normalize_stock_code is idempotent on every input whose
normalized output does not contain the substring HK and is neither the dash
nor the quote-character placeholder. -/
theorem C10_normalize_stock_code_idem (s : LStr)
    (h1 : containsSub ['H', 'K'] (normalize_stock_code s) = false)
    (h2 : normalize_stock_code s ≠ ['-'])
    (h3 : normalize_stock_code s ≠ [quoteChar]) :
    normalize_stock_code (normalize_stock_code s) = normalize_stock_code s := by
  rcases normalize_stock_code_cases s with hz | ⟨n, hp⟩ | ⟨hr, hd⟩
  · rw [hz]
    rfl
  · rw [hp]
    exact normalize_padTo5 n
  · rw [hr] at h2 h3 ⊢
    rw [hr] at h1
    have hstrip : pyStrip (stockCodeResidue s) = stockCodeResidue s := by
      rw [stockCodeResidue]
      exact pyStrip_idem _
    have hdot := containsSub_dotHK_of_HK _ h1
    have hres2 : stockCodeResidue (stockCodeResidue s) = stockCodeResidue s := by
      show pyStrip (removeAll ['H', 'K']
        (removeAll ['.', 'H', 'K'] (pyStrip (stockCodeResidue s)))) = _
      rw [hstrip, removeAll_no_occurrence _ _ hdot, removeAll_no_occurrence _ _ h1, hstrip]
    by_cases hnil : stockCodeResidue s = []
    · rw [hnil]
      rfl
    · simp only [normalize_stock_code]
      rw [hstrip, hres2, if_neg, if_neg]
      · rw [hd]
        simp
      · rintro (he | he | he)
        · exact hnil he
        · exact h3 he
        · exact h2 he

/-- C10 witness: idempotence at the input 700, whose output 00700 meets the
side conditions. -/
theorem C10_normalize_stock_code_idem_witness :
    normalize_stock_code (normalize_stock_code "700".toList) =
      normalize_stock_code "700".toList :=
  C10_normalize_stock_code_idem ("700".toList) (by decide) (by decide) (by decide)

/-- C10 counterexample: on the input HK- the first application returns the
dash, which the placeholder check of a second application maps to the empty
string, so normalize_stock_code is not idempotent. -/
theorem C10_normalize_stock_code_idem_counterexample :
    normalize_stock_code (normalize_stock_code "HK-".toList) ≠
      normalize_stock_code "HK-".toList := by
  decide

/-! ## Lemmas: calendar arithmetic and the sample time-shift -/

theorem daysInMonth_pos (y m : Nat) : 1 ≤ daysInMonth y m := by
  rw [daysInMonth]
  by_cases h2 : m = 2
  · rw [if_pos h2]
    cases isLeap y <;> simp
  · rw [if_neg h2]
    by_cases h4 : m = 4 ∨ m = 6 ∨ m = 9 ∨ m = 11
    · rw [if_pos h4]
      norm_num
    · rw [if_neg h4]
      norm_num

theorem daysInMonth_le_31 (y m : Nat) : daysInMonth y m ≤ 31 := by
  rw [daysInMonth]
  by_cases h2 : m = 2
  · rw [if_pos h2]
    cases isLeap y <;> simp
  · rw [if_neg h2]
    by_cases h4 : m = 4 ∨ m = 6 ∨ m = 9 ∨ m = 11
    · rw [if_pos h4]
      norm_num
    · rw [if_neg h4]

theorem cumDays_add_le (y : Nat) : ∀ (a k : Nat), cumDays y a ≤ cumDays y (a + k) := by
  intro a k
  induction k with
  | zero => exact Nat.le_refl _
  | succ k ih =>
    have hstep : cumDays y (a + (k + 1)) = cumDays y (a + k) + daysInMonth y (a + k + 1) := rfl
    rw [hstep]
    exact le_trans ih (Nat.le_add_right _ _)

theorem cumDays_le (y : Nat) (a b : Nat) (h : a ≤ b) : cumDays y a ≤ cumDays y b := by
  rcases Nat.le.dest h with ⟨k, rfl⟩
  exact cumDays_add_le y a k

theorem cumDays_twelve (y : Nat) : cumDays y 12 = 365 + (if isLeap y then 1 else 0) := by
  show cumDays y 0 + daysInMonth y 1 + daysInMonth y 2 + daysInMonth y 3 + daysInMonth y 4 +
      daysInMonth y 5 + daysInMonth y 6 + daysInMonth y 7 + daysInMonth y 8 + daysInMonth y 9 +
      daysInMonth y 10 + daysInMonth y 11 + daysInMonth y 12 = 365 + (if isLeap y then 1 else 0)
  simp only [cumDays, daysInMonth]
  norm_num
  cases hL : isLeap y <;> simp [hL]

theorem yearBase_succ (y : Nat) (hy : 1 ≤ y) : yearBase (y + 1) = yearBase y + cumDays y 12 := by
  rw [cumDays_twelve, yearBase, yearBase, leapsBefore, leapsBefore, Nat.add_sub_cancel]
  simp only [isLeap, Bool.and_eq_true, Bool.or_eq_true, beq_iff_eq, bne_iff_ne,
    decide_eq_true_eq]
  split_ifs with hL <;> omega

theorem yearBase_mono (a b : Nat) (hab : a ≤ b) : yearBase a ≤ yearBase b := by
  rw [yearBase, yearBase, leapsBefore, leapsBefore]
  omega

theorem ord_first_mono (y m y2 m2 : Nat) (hy : 1 ≤ y) (hm1 : 1 ≤ m) (hm2 : m ≤ 12)
    (hy2 : 1 ≤ y2) (hm21 : 1 ≤ m2) (hm22 : m2 ≤ 12)
    (h : y * 12 + m ≤ y2 * 12 + m2) :
    yearBase y + cumDays y (m - 1) ≤ yearBase y2 + cumDays y2 (m2 - 1) := by
  rcases Nat.lt_or_ge y y2 with hlt | hge
  · have h1 : cumDays y (m - 1) ≤ cumDays y 12 := cumDays_le y (m - 1) 12 (by omega)
    have h2 : yearBase (y + 1) = yearBase y + cumDays y 12 := yearBase_succ y hy
    have h3 : yearBase (y + 1) ≤ yearBase y2 := yearBase_mono (y + 1) y2 (by omega)
    omega
  · have hye : y = y2 := by omega
    subst hye
    have := cumDays_le y (m - 1) (m2 - 1) (by omega)
    omega

theorem month_index_lt_of_gap (a b : Date) (ha : a.valid) (hb : b.valid)
    (h : (a.toOrd : Int) + 30 < (b.toOrd : Int)) : _month_index a < _month_index b := by
  by_contra hc
  push_neg at hc
  have hmono : yearBase b.year + cumDays b.year (b.month - 1) ≤
      yearBase a.year + cumDays a.year (a.month - 1) := by
    apply ord_first_mono b.year b.month a.year a.month hb.1 hb.2.1 hb.2.2.1 ha.1 ha.2.1
      ha.2.2.1
    simpa [_month_index] using hc
  have hbd : b.day ≤ 31 := le_trans hb.2.2.2.2 (daysInMonth_le_31 _ _)
  have had : 1 ≤ a.day := ha.2.2.2.1
  have e1 : a.toOrd = yearBase a.year + cumDays a.year (a.month - 1) + a.day := rfl
  have e2 : b.toOrd = yearBase b.year + cumDays b.year (b.month - 1) + b.day := rfl
  omega

theorem addMonths_mi (v : Date) (k : Int) (hk : 0 ≤ k) (hm1 : 1 ≤ v.month)
    (hm2 : v.month ≤ 12) (hy : 1 ≤ v.year) :
    ((_add_months v k).year : Int) * 12 + ((_add_months v k).month : Int) =
      (v.year : Int) * 12 + (v.month : Int) + k ∧
    1 ≤ (_add_months v k).month ∧ (_add_months v k).month ≤ 12 ∧
    1 ≤ (_add_months v k).year := by
  have hid := Int.fdiv_add_fmod ((v.month : Int) - 1 + k) 12
  have hr0 : 0 ≤ ((v.month : Int) - 1 + k).fmod 12 :=
    Int.fmod_nonneg' _ (by norm_num)
  have hr12 : ((v.month : Int) - 1 + k).fmod 12 < 12 :=
    Int.fmod_lt_of_pos _ (by norm_num)
  have hy1 : (1 : Int) ≤ (v.year : Int) := by exact_mod_cast hy
  have hm1i : (1 : Int) ≤ (v.month : Int) := by exact_mod_cast hm1
  have hq0 : 0 ≤ ((v.month : Int) - 1 + k).fdiv 12 := by omega
  have hyi : (((v.year : Int) + ((v.month : Int) - 1 + k).fdiv 12).toNat : Int) =
      (v.year : Int) + ((v.month : Int) - 1 + k).fdiv 12 :=
    Int.toNat_of_nonneg (by omega)
  have hmi : ((((v.month : Int) - 1 + k).fmod 12 + 1).toNat : Int) =
      ((v.month : Int) - 1 + k).fmod 12 + 1 :=
    Int.toNat_of_nonneg (by omega)
  refine ⟨?_, ?_, ?_, ?_⟩
  · show ((((v.year : Int) + ((v.month : Int) - 1 + k).fdiv 12).toNat : Int)) * 12 +
      (((((v.month : Int) - 1 + k).fmod 12 + 1).toNat : Int)) = _
    rw [hyi, hmi]
    omega
  · show 1 ≤ ((((v.month : Int) - 1 + k).fmod 12 + 1).toNat)
    omega
  · show ((((v.month : Int) - 1 + k).fmod 12 + 1).toNat) ≤ 12
    omega
  · show 1 ≤ (((v.year : Int) + ((v.month : Int) - 1 + k).fdiv 12).toNat)
    omega

theorem addMonths_year_month (v today : Date) (hv : v.valid) (ht : today.valid) (k : Int)
    (hk : k = (_month_index today : Int) - (_month_index v : Int)) (hk1 : 1 ≤ k) :
    (_add_months v k).year = today.year ∧ (_add_months v k).month = today.month := by
  rcases addMonths_mi v k (by omega) hv.2.1 hv.2.2.1 hv.1 with ⟨heq, hm1, hm2, hy1⟩
  have hmi : (_month_index today : Int) = (today.year : Int) * 12 + today.month := by
    rw [_month_index]
    push_cast
    ring
  have hmv : (_month_index v : Int) = (v.year : Int) * 12 + v.month := by
    rw [_month_index]
    push_cast
    ring
  have ht1 := ht.2.1
  have ht2 := ht.2.2.1
  constructor <;> omega

theorem listMaxD_ge_start : ∀ (ds : List Date) (a : Date),
    a.toOrd ≤ (listMaxD a ds).toOrd := by
  intro ds
  induction ds with
  | nil => intro a; exact Nat.le_refl _
  | cons b t ih =>
    intro a
    have hcons : listMaxD a (b :: t) =
        listMaxD (if a.toOrd < b.toOrd then b else a) t := rfl
    rw [hcons]
    by_cases h : a.toOrd < b.toOrd
    · rw [if_pos h]
      exact le_trans (Nat.le_of_lt h) (ih b)
    · rw [if_neg h]
      exact ih a

theorem listMaxD_ge : ∀ (ds : List Date) (a x : Date),
    x ∈ a :: ds → x.toOrd ≤ (listMaxD a ds).toOrd := by
  intro ds
  induction ds with
  | nil =>
    intro a x hx
    rcases List.mem_cons.mp hx with rfl | hx2
    · exact Nat.le_refl _
    · cases hx2
  | cons b t ih =>
    intro a x hx
    have hcons : listMaxD a (b :: t) =
        listMaxD (if a.toOrd < b.toOrd then b else a) t := rfl
    rw [hcons]
    have hub : x.toOrd ≤ (if a.toOrd < b.toOrd then b else a).toOrd ∨ x ∈ t := by
      rcases List.mem_cons.mp hx with rfl | hx2
      · left
        by_cases h : x.toOrd < b.toOrd
        · rw [if_pos h]
          exact Nat.le_of_lt h
        · rw [if_neg h]
      · rcases List.mem_cons.mp hx2 with rfl | hx3
        · left
          by_cases h : a.toOrd < x.toOrd
          · rw [if_pos h]
          · rw [if_neg h]
            omega
        · right
          exact hx3
    rcases hub with hle | hxt
    · exact le_trans hle (listMaxD_ge_start t _)
    · exact ih _ x (List.mem_cons_of_mem _ hxt)

theorem listMinD_mem : ∀ (ds : List Date) (a : Date),
    listMinD a ds = a ∨ listMinD a ds ∈ ds := by
  intro ds
  induction ds with
  | nil => intro a; exact Or.inl rfl
  | cons b t ih =>
    intro a
    have hcons : listMinD a (b :: t) =
        listMinD (if b.toOrd < a.toOrd then b else a) t := rfl
    rw [hcons]
    by_cases h : b.toOrd < a.toOrd
    · rw [if_pos h]
      rcases ih b with he | hm
      · rw [he]
        exact Or.inr (List.mem_cons_self b t)
      · exact Or.inr (List.mem_cons_of_mem _ hm)
    · rw [if_neg h]
      rcases ih a with he | hm
      · exact Or.inl he
      · exact Or.inr (List.mem_cons_of_mem _ hm)

theorem shift_item_dates (a : Item) (k : Int) :
    [(_shift_item_months a k).bookbuilding_start, (_shift_item_months a k).bookbuilding_end,
      (_shift_item_months a k).trade_date].filterMap id =
    ([a.bookbuilding_start, a.bookbuilding_end, a.trade_date].filterMap id).map
      (fun v => _add_months v k) := by
  cases h1 : a.bookbuilding_start <;> cases h2 : a.bookbuilding_end <;>
    cases h3 : a.trade_date <;> simp [_shift_item_months, h1, h2, h3]

theorem collectItemDates_map_shift (items : List Item) (k : Int) :
    collectItemDates (items.map (fun item => _shift_item_months item k)) =
      (collectItemDates items).map (fun v => _add_months v k) := by
  induction items with
  | nil => rfl
  | cons a r ih =>
    show ([(_shift_item_months a k).bookbuilding_start,
        (_shift_item_months a k).bookbuilding_end,
        (_shift_item_months a k).trade_date].filterMap id) ++
        collectItemDates (r.map (fun item => _shift_item_months item k)) = _
    rw [shift_item_dates, ih]
    show _ = (([a.bookbuilding_start, a.bookbuilding_end, a.trade_date].filterMap id) ++
        collectItemDates r).map (fun v => _add_months v k)
    rw [List.map_append]

/-- C6 (amended): when every date of the fixture is valid and the latest one
is more than 60 days before today, _shift_sample_to_recent shifts every date
field forward by one common positive whole number of months (the month gap
from the earliest date to today), preserving the day-of-month whenever it
fits the target month and clamping it to that month's length otherwise, and
afterwards the latest date of the list is at most 60 days before today (it
may lie in the future). -/
theorem C6_shift_sample_to_recent (today : Date) (items : List Item) (d : Date)
    (ds : List Date)
    (hc : collectItemDates items = d :: ds)
    (hvalid : ∀ v ∈ collectItemDates items, v.valid)
    (htoday : today.valid)
    (hstale : ((listMaxD d ds).toOrd : Int) < (today.toOrd : Int) - 60) :
    ∃ k : Int, 1 ≤ k ∧
      k = (_month_index today : Int) - (_month_index (listMinD d ds) : Int) ∧
      _shift_sample_to_recent today items =
        items.map (fun item => _shift_item_months item k) ∧
      (∀ v : Date, (_add_months v k).day =
        min v.day (daysInMonth (_add_months v k).year (_add_months v k).month)) ∧
      (∀ v : Date, v.day ≤ daysInMonth (_add_months v k).year (_add_months v k).month →
        (_add_months v k).day = v.day) ∧
      (∀ e es2, collectItemDates (_shift_sample_to_recent today items) = e :: es2 →
        (today.toOrd : Int) - ((listMaxD e es2).toOrd : Int) ≤ 60) := by
  have hEmem : listMinD d ds ∈ collectItemDates items := by
    rw [hc]
    rcases listMinD_mem ds d with he | hm
    · rw [he]
      exact List.mem_cons_self d ds
    · exact List.mem_cons_of_mem _ hm
  have hEvalid : (listMinD d ds).valid := hvalid _ hEmem
  have hEleL : (listMinD d ds).toOrd ≤ (listMaxD d ds).toOrd := by
    apply listMaxD_ge ds d
    rcases listMinD_mem ds d with he | hm
    · rw [he]
      exact List.mem_cons_self d ds
    · exact List.mem_cons_of_mem _ hm
  have hgap : _month_index (listMinD d ds) < _month_index today := by
    apply month_index_lt_of_gap _ _ hEvalid htoday
    omega
  refine ⟨(_month_index today : Int) - (_month_index (listMinD d ds) : Int),
    by omega, rfl, ?_, ?_, ?_, ?_⟩
  · obtain ⟨i, is, rfl⟩ : ∃ i is, items = i :: is := by
      cases items with
      | nil => simp [collectItemDates] at hc
      | cons i is => exact ⟨i, is, rfl⟩
    simp only [_shift_sample_to_recent, hc]
    rw [if_neg (by omega), if_neg (by omega)]
  · intro v
    rfl
  · intro v h
    show min v.day _ = v.day
    exact min_eq_left h
  · intro e es2 hce
    have hres : _shift_sample_to_recent today items =
        items.map (fun item => _shift_item_months item
          ((_month_index today : Int) - (_month_index (listMinD d ds) : Int))) := by
      obtain ⟨i, is, rfl⟩ : ∃ i is, items = i :: is := by
        cases items with
        | nil => simp [collectItemDates] at hc
        | cons i is => exact ⟨i, is, rfl⟩
      simp only [_shift_sample_to_recent, hc]
      rw [if_neg (by omega), if_neg (by omega)]
    rw [hres, collectItemDates_map_shift, hc, List.map_cons] at hce
    injection hce with he hes
    subst he
    subst hes
    have hEm2 : _add_months (listMinD d ds)
        ((_month_index today : Int) - (_month_index (listMinD d ds) : Int)) ∈
        _add_months d ((_month_index today : Int) - (_month_index (listMinD d ds) : Int)) ::
          ds.map (fun v => _add_months v
            ((_month_index today : Int) - (_month_index (listMinD d ds) : Int))) := by
      rcases listMinD_mem ds d with he2 | hm2
      · rw [he2]
        exact List.mem_cons_self _ _
      · exact List.mem_cons_of_mem _ (List.mem_map_of_mem _ hm2)
    have hmax := listMaxD_ge _ _ _ hEm2
    rcases addMonths_year_month (listMinD d ds) today hEvalid htoday _ rfl (by omega) with
      ⟨hyy, hmm⟩
    have hday1 : 1 ≤ (_add_months (listMinD d ds)
        ((_month_index today : Int) - (_month_index (listMinD d ds) : Int))).day := by
      have h1 := hEvalid.2.2.2.1
      have h2 := daysInMonth_pos
        (_add_months (listMinD d ds)
          ((_month_index today : Int) - (_month_index (listMinD d ds) : Int))).year
        (_add_months (listMinD d ds)
          ((_month_index today : Int) - (_month_index (listMinD d ds) : Int))).month
      show 1 ≤ min (listMinD d ds).day _
      exact le_min h1 h2
    have htday : today.day ≤ 31 := le_trans htoday.2.2.2.2 (daysInMonth_le_31 _ _)
    have e1 : (_add_months (listMinD d ds)
        ((_month_index today : Int) - (_month_index (listMinD d ds) : Int))).toOrd =
        yearBase today.year + cumDays today.year (today.month - 1) +
          (_add_months (listMinD d ds)
            ((_month_index today : Int) - (_month_index (listMinD d ds) : Int))).day := by
      show yearBase _ + cumDays _ _ + _ = _
      rw [hyy, hmm]
    have e2 : today.toOrd =
        yearBase today.year + cumDays today.year (today.month - 1) + today.day := rfl
    omega

/-- C6 witness: a fixture one record, one date, far in the past, with today
2025-06-15: the shift moves it into the current month and the conclusion
holds. -/
theorem C6_shift_sample_to_recent_witness :
    ∃ k : Int, 1 ≤ k ∧
      k = (_month_index (Date.mk 2025 6 15) : Int) -
        (_month_index (listMinD (Date.mk 2020 1 10) []) : Int) ∧
      _shift_sample_to_recent (Date.mk 2025 6 15)
          [{ baseItem with bookbuilding_start := some (Date.mk 2020 1 10) }] =
        [{ baseItem with bookbuilding_start := some (Date.mk 2020 1 10) }].map
          (fun item => _shift_item_months item k) ∧
      (∀ v : Date, (_add_months v k).day =
        min v.day (daysInMonth (_add_months v k).year (_add_months v k).month)) ∧
      (∀ v : Date, v.day ≤ daysInMonth (_add_months v k).year (_add_months v k).month →
        (_add_months v k).day = v.day) ∧
      (∀ e es2, collectItemDates (_shift_sample_to_recent (Date.mk 2025 6 15)
          [{ baseItem with bookbuilding_start := some (Date.mk 2020 1 10) }]) = e :: es2 →
        ((Date.mk 2025 6 15).toOrd : Int) - ((listMaxD e es2).toOrd : Int) ≤ 60) :=
  C6_shift_sample_to_recent (Date.mk 2025 6 15)
    [{ baseItem with bookbuilding_start := some (Date.mk 2020 1 10) }]
    (Date.mk 2020 1 10) [] (by decide) (by decide) (by decide) (by decide)

/-- C6 counterexample: under the two-sided reading of within 60 days of
today, the claim fails: a record spanning January to July 2020 with today
2025-06-15 is stale and valid, yet after the shift its latest date,
2025-12-20, lies 188 days after today. -/
theorem C6_shift_sample_to_recent_counterexample :
    ((listMaxD (Date.mk 2020 1 10) [Date.mk 2020 1 10, Date.mk 2020 7 20]).toOrd : Int) <
      ((Date.mk 2025 6 15).toOrd : Int) - 60 ∧
    collectItemDates [staleSpanItem] =
      [Date.mk 2020 1 10, Date.mk 2020 1 10, Date.mk 2020 7 20] ∧
    (∀ v ∈ collectItemDates [staleSpanItem], v.valid) ∧
    collectItemDates (_shift_sample_to_recent (Date.mk 2025 6 15) [staleSpanItem]) =
      [Date.mk 2025 6 10, Date.mk 2025 6 10, Date.mk 2025 12 20] ∧
    ¬(((Date.mk 2025 12 20).toOrd : Int) - ((Date.mk 2025 6 15).toOrd : Int) ≤ 60) := by
  refine ⟨by decide, by decide, ?_, by decide, by decide⟩
  decide
